import Mathlib

/-
Verification of the TLA+ trace-to-JSON converter
(`scripts/tla_trace_to_json.py`).
The Python source is shallowly embedded: strings are `List Char`,
Python's dynamically-typed parse results are the inductive `Value`
(whose composite constructors stand for the tagged dicts
`{"type": ..., ...}` the source builds), Python dicts are
insertion-ordered association lists manipulated through `dictInsert`,
and a raised exception is `Except.error ()`.  All definitions are
structurally recursive (recursion through substrings is fuel-indexed,
with the fuel proved irrelevant above the input length), so every
definition evaluates by `decide` / `rfl`.
-/
/-! ### Basic character and string helpers -/
/-- Whitespace as recognized by Python's `str.strip()` (ASCII range). -/
def isWS (c : Char) : Bool :=
  c = ' ' || c = '\t' || c = '\n' || c = '\r' || c = '\x0b' || c = '\x0c'

/-- Python `str.lstrip()`. -/
def lstripL (s : List Char) : List Char := s.dropWhile isWS

/-- Python `str.rstrip()`. -/
def rstripL (s : List Char) : List Char := (s.reverse.dropWhile isWS).reverse

/-- Python `str.strip()`. -/
def strip (s : List Char) : List Char := rstripL (lstripL s)

/-- Python's `\w` (ASCII range): letters, digits, underscore. -/
def isWordChar (c : Char) : Bool := c.isAlphanum || c = '_'

/-- Numeric value of a digit string (`int()` on a digit run). -/
def natOfDigits (ds : List Char) : Nat :=
  ds.foldl (fun n c => n * 10 + (c.toNat - '0'.toNat)) 0

/-- The regex `^-?\d+$` from the Number branch of `parse_tla_value`:
an optional leading `-`, then at least one digit, nothing else. -/
def isIntLit (s : List Char) : Bool :=
  match s with
  | [] => false
  | c :: ds => if c = '-' then !ds.isEmpty && ds.all Char.isDigit else (c :: ds).all Char.isDigit

/-- Python `int()` on a string matching `^-?\d+$`. -/
def intOfLit (s : List Char) : Int :=
  match s with
  | [] => 0
  | c :: ds => if c = '-' then -(natOfDigits ds : Int) else (natOfDigits (c :: ds) : Int)

/-- Split on the first occurrence of `pat` (Python `s.split(pat, 1)`
when `pat` occurs); `none` when `pat` does not occur (Python `pat in s`
is false). -/
def splitFirstSub (pat : List Char) : List Char → Option (List Char × List Char)
  | [] => if pat.isEmpty then some ([], []) else none
  | c :: rest =>
    if pat.isPrefixOf (c :: rest) then some ([], (c :: rest).drop pat.length)
    else
      match splitFirstSub pat rest with
      | some (a, b) => some (c :: a, b)
      | none => none

/-- Python substring containment `pat in s`. -/
def containsSub (pat : List Char) (s : List Char) : Bool :=
  (splitFirstSub pat s).isSome

/-- Worker for `splitAtAt`: leftmost non-overlapping scan for `@@`. -/
def splitAtAtAux : List Char → List Char → List (List Char)
  | [], acc => [acc.reverse]
  | [c], acc => [(c :: acc).reverse]
  | a :: b :: rest, acc =>
    if a = '@' && b = '@' then acc.reverse :: splitAtAtAux rest []
    else splitAtAtAux (b :: rest) (a :: acc)

/-- Python `s.split('@@')` (used by the Function branch). -/
def splitAtAt (s : List Char) : List (List Char) := splitAtAtAux s []

/-! ### `split_tla_list` (lines 134-166 of the source) -/
/-- The loop state of `split_tla_list`: previous character (`s[i-1]`),
the accumulating `current`, the nesting `depth`, the collected
`elements`, and the `in_string` flag. -/
structure ScanSt where
  prev : Option Char
  cur : List Char
  depth : Int
  elems : List (List Char)
  inStr : Bool
  deriving Repr, DecidableEq

/-- The opening delimiters `'{[(<'` of the source. -/
def openDelims : List Char := "\x7b[(<".toList

/-- The closing delimiters `'}])>'` of the source. -/
def closeDelims : List Char := "\x7d])>".toList

/-- One iteration of the `while i < len(s)` loop of `split_tla_list`. -/
def stepScan (st : ScanSt) (c : Char) : ScanSt :=
  if c = '"' && !(st.prev = some '\\') then
    { st with prev := some c, cur := st.cur ++ [c], inStr := !st.inStr }
  else if st.inStr then
    { st with prev := some c, cur := st.cur ++ [c] }
  else if openDelims.contains c then
    { st with prev := some c, cur := st.cur ++ [c], depth := st.depth + 1 }
  else if closeDelims.contains c then
    { st with prev := some c, cur := st.cur ++ [c], depth := st.depth - 1 }
  else if c = ',' && st.depth = 0 then
    { st with prev := some c, cur := [], elems := st.elems ++ [strip st.cur] }
  else
    { st with prev := some c, cur := st.cur ++ [c] }

/-- Run the scan loop over a string. -/
def runScan (st : ScanSt) (s : List Char) : ScanSt := s.foldl stepScan st

/-- The state at loop entry (`i = 0`). -/
def scanStart : ScanSt := ⟨none, [], 0, [], false⟩

/-- `split_tla_list` (source lines 134-166): scan, flush the final
`current` if non-empty, drop empty elements. -/
def split_tla_list (s : List Char) : List (List Char) :=
  let st := runScan scanStart s
  (st.elems ++ (if st.cur.isEmpty then [] else [strip st.cur])).filter
    (fun e => !e.isEmpty)

/-! ### The value domain

`parse_tla_value` returns a dynamically-typed Python value: `True` /
`False`, `int`, `str` (both from the quoted-string branch and from the
raw fallback, which are indistinguishable at runtime), `None`, or one
of the tagged dicts `{"type": "set"|"sequence", "elements": [...]}`,
`{"type": "record", "fields": {...}}`,
`{"type": "function", "mapping": {...}}`.  `Value` is the isomorphic
image of that domain; `record` fields and `func` mappings are the
insertion-ordered dicts. -/
inductive Value where
  | bool (b : Bool)
  | int (n : Int)
  | str (s : List Char)
  | null
  | set (elems : List Value)
  | seq (elems : List Value)
  | record (fields : List (List Char × Value))
  | func (mapping : List (Value × Value))
  | raw (s : List Char)
  deriving Repr

/-- Python `==` on the values that can appear as dict keys.  Python
identifies `True` with `1` and `False` with `0`, and a parsed quoted
string with raw fallback text of the same content (both are `str`). -/
def pyEqKey : Value → Value → Bool
  | .bool a, .bool b => a == b
  | .bool a, .int n => (if a then (1 : Int) else 0) == n
  | .int n, .bool b => n == (if b then (1 : Int) else 0)
  | .int m, .int n => m == n
  | .str s, .str t => s == t
  | .str s, .raw t => s == t
  | .raw s, .str t => s == t
  | .raw s, .raw t => s == t
  | .null, .null => true
  | _, _ => false

/-- Whether a parse result is hashable in Python.  The composite
results are dicts, which raise `TypeError: unhashable type` when used
as a dict key. -/
def pyHashable : Value → Bool
  | .bool _ => true
  | .int _ => true
  | .str _ => true
  | .raw _ => true
  | .null => true
  | _ => false

/-- Python dict assignment `m[k] = v` on an insertion-ordered
association list: an existing key (under `eqk`) keeps its position and
original key object and takes the new value; a new key is appended. -/
def dictInsert {α β : Type} (eqk : α → α → Bool) (k : α) (v : β)
    (m : List (α × β)) : List (α × β) :=
  if m.any (fun p => eqk p.1 k) then
    m.map (fun p => if eqk p.1 k then (p.1, v) else p)
  else m ++ [(k, v)]

/-- Equality of record field names (Python `str` keys). -/
def strKeyEq (a b : List Char) : Bool := a == b

/-! ### `parse_tla_value` (lines 63-131 of the source)

The Python function recurses through substrings of its input; the
embedding indexes the recursion by fuel, decreasing on every call.
`parse_tla_value` supplies fuel `length + 1`, which is proved
sufficient below (`parseV_congr` and the branch equations): the fuel
is an artifact of the embedding, not of the source. -/
def kTRUE : List Char := ['T', 'R', 'U', 'E']

def kFALSE : List Char := ['F', 'A', 'L', 'S', 'E']

def kNULLu : List Char := ['N', 'U', 'L', 'L']

def kNULLl : List Char := ['n', 'u', 'l', 'l']

def kLtLt : List Char := ['<', '<']

def kGtGt : List Char := ['>', '>']

def kColonGt : List Char := [':', '>']

def kBarArrow : List Char := [' ', '|', '-', '>', ' ']

/-- The dispatch body of `parse_tla_value` (lines 63-131), with the
three recursive loops abstracted: each guard mirrors the
corresponding source test in source order. -/
def parseStep (recL : List (List Char) → Except Unit (List Value))
    (recR : List (List Char) → List (List Char × Value) →
      Except Unit (List (List Char × Value)))
    (recF : List (List Char) → List (Value × Value) →
      Except Unit (List (Value × Value)))
    (s0 : List Char) : Except Unit Value :=
  let s := strip s0
  if s = kTRUE then .ok (.bool true)
  else if s = kFALSE then .ok (.bool false)
  else if isIntLit s then .ok (.int (intOfLit s))
  else if s.head? = some '"' && s.getLast? = some '"' then
    .ok (.str ((s.drop 1).dropLast))
  else if s.head? = some '\x7b' && s.getLast? = some '\x7d' then
    let inner := strip ((s.drop 1).dropLast)
    if inner.isEmpty then .ok (.set [])
    else (recL (split_tla_list inner)).map .set
  else if kLtLt.isPrefixOf s && kGtGt.isSuffixOf s then
    let inner := strip (((s.drop 2).dropLast).dropLast)
    if inner.isEmpty then .ok (.seq [])
    else (recL (split_tla_list inner)).map .seq
  else if s.head? = some '[' && s.getLast? = some ']' then
    let inner := strip ((s.drop 1).dropLast)
    if inner.isEmpty then .ok (.record [])
    else (recR (split_tla_list inner) []).map .record
  else if s.head? = some '(' && s.getLast? = some ')' && containsSub kColonGt s then
    let inner := strip ((s.drop 1).dropLast)
    (recF (splitAtAt inner) []).map .func
  else if s = kNULLu || s = kNULLl then .ok .null
  else .ok (.raw s)

mutual

/-- `parse_tla_value`, fuel-indexed. -/
def parseV : Nat → List Char → Except Unit Value
  | 0, _ => .error ()
  | n + 1, s0 => parseStep (parseListV n) (parseRecV n) (parseFuncV n) s0

/-- The element loops of the Set and Sequence branches
(`[parse_tla_value(e) for e in elements]`). -/
def parseListV : Nat → List (List Char) → Except Unit (List Value)
  | 0, _ => .error ()
  | _ + 1, [] => .ok []
  | n + 1, e :: rest => do
    let v ← parseV n e
    let vs ← parseListV n rest
    .ok (v :: vs)

/-- The Record branch loop: parts with `' |-> '` contribute a field
(name left of the first occurrence, value the parse of the right);
parts without it are dropped. -/
def parseRecV : Nat → List (List Char) → List (List Char × Value) →
    Except Unit (List (List Char × Value))
  | 0, _, _ => .error ()
  | _ + 1, [], fs => .ok fs
  | n + 1, part :: rest, fs =>
    match splitFirstSub kBarArrow part with
    | some (f, val) => do
      let v ← parseV n (strip val)
      parseRecV n rest (dictInsert strKeyEq (strip f) v fs)
    | none => parseRecV n rest fs

/-- The Function branch loop: segments (from the `@@` split) with `:>`
contribute a mapping entry; the value is parsed before the key
(Python evaluates the assignment's right-hand side first), and an
unhashable key raises `TypeError`. -/
def parseFuncV : Nat → List (List Char) → List (Value × Value) →
    Except Unit (List (Value × Value))
  | 0, _, _ => .error ()
  | _ + 1, [], m => .ok m
  | n + 1, part :: rest, m =>
    let p := strip part
    match splitFirstSub kColonGt p with
    | some (kt, vt) => do
      let v ← parseV n (strip vt)
      let k ← parseV n (strip kt)
      if pyHashable k then parseFuncV n rest (dictInsert pyEqKey k v m)
      else .error ()
    | none => parseFuncV n rest m

end

/-- `parse_tla_value`: the fuel `length + 1` always suffices (proved
below), so this is the total-function reading of the source. -/
def parse_tla_value (s : List Char) : Except Unit Value :=
  parseV (s.length + 1) s

/-! ### JSON output model (`Trace.to_dict` + `json.dump`)

`Json` models the structure of the emitted document: `json.dump`
renders Python dicts as objects (coercing non-string keys to strings),
lists as arrays, and scalars as the corresponding JSON scalars. -/
inductive Json where
  | bool (b : Bool)
  | num (n : Int)
  | str (s : List Char)
  | null
  | arr (elems : List Json)
  | obj (fields : List (List Char × Json))
  deriving Repr

/-- Python `str()` of an `int` (decimal, `-` sign). -/
def intDecRepr (n : Int) : List Char :=
  if n < 0 then '-' :: (Nat.repr n.natAbs).toList else (Nat.repr n.toNat).toList

/-- `json.dump`'s coercion of a non-string dict key to a member name:
`True`/`False` become `"true"`/`"false"`, ints their decimal digits,
`None` becomes `"null"`, strings stay.  Composite values are
unhashable hence never keys; they get a dummy name. -/
def jsonKeyOfValue : Value → List Char
  | .bool true => "true".toList
  | .bool false => "false".toList
  | .int n => intDecRepr n
  | .str s => s
  | .raw s => s
  | .null => "null".toList
  | _ => []

instance : Inhabited Value := ⟨.null⟩

instance : Inhabited Json := ⟨.null⟩

/-- How `json.dump` renders one parse result inside the document. -/
def jsonOfValue : Value → Json
  | .bool b => .bool b
  | .int n => .num n
  | .str s => .str s
  | .null => .null
  | .raw s => .str s
  | .set es => .obj [("type".toList, .str "set".toList),
      ("elements".toList, .arr (es.attach.map (fun p => jsonOfValue p.1)))]
  | .seq es => .obj [("type".toList, .str "sequence".toList),
      ("elements".toList, .arr (es.attach.map (fun p => jsonOfValue p.1)))]
  | .record fs => .obj [("type".toList, .str "record".toList),
      ("fields".toList, .obj (fs.attach.map (fun p => (p.1.1, jsonOfValue p.1.2))))]
  | .func m => .obj [("type".toList, .str "function".toList),
      ("mapping".toList, .obj (m.attach.map (fun p => (jsonKeyOfValue p.1.1, jsonOfValue p.1.2))))]
decreasing_by
  all_goals simp_wf
  · have := List.sizeOf_lt_of_mem p.2; omega
  · have := List.sizeOf_lt_of_mem p.2; omega
  · have h := List.sizeOf_lt_of_mem p.2
    obtain ⟨⟨a, b⟩, hp⟩ := p
    simp at h ⊢; omega
  · have h := List.sizeOf_lt_of_mem p.2
    obtain ⟨⟨a, b⟩, hp⟩ := p
    simp at h ⊢; omega

/-! ### Line classification (`parse_tlc_output`, lines 169-247) -/
def kMarker : List Char := "Error: The behavior up to this point is:".toList

def kStateSp : List Char := "State ".toList

def kInvKw : List Char := "Invariant ".toList

def kPropKw : List Char := "Property ".toList

def kViolTl : List Char := " is violated".toList

def kSlashBS : List Char := "/\\ ".toList

def kSpEqSp : List Char := " = ".toList

/-- `re.search(kw + r'(\w+)' + tl, line)`: leftmost position where the
literal `kw`, a non-empty word-character run, then the literal `tl`
match; returns the word run.  (The source's separate substring guards
`"Invariant" in line and "is violated" in line` are implied by a
successful search and cannot make a failed search succeed.) -/
def searchPatWord (kw tl : List Char) : List Char → Option (List Char)
  | [] => none
  | c :: rest =>
    if kw.isPrefixOf (c :: rest) then
      let r := (c :: rest).drop kw.length
      let w := r.takeWhile isWordChar
      if !w.isEmpty && tl.isPrefixOf (r.drop w.length) then some w
      else searchPatWord kw tl rest
    else searchPatWord kw tl rest

/-- `re.search(r'Invariant (\w+) is violated', line)` (line 184). -/
def searchInvName (l : List Char) : Option (List Char) := searchPatWord kInvKw kViolTl l

/-- `re.search(r'Property (\w+) is violated', line)` (line 190). -/
def searchPropName (l : List Char) : Option (List Char) := searchPatWord kPropKw kViolTl l

/-- `re.match(r'^State (\d+):', line)` (line 200): the line must start
with `State `, then a digit run, then `:`. -/
def matchStateHeader (l : List Char) : Option Nat :=
  if kStateSp.isPrefixOf l then
    let rest := l.drop 6
    let ds := rest.takeWhile Char.isDigit
    if !ds.isEmpty && (rest.drop ds.length).head? = some ':' then some (natOfDigits ds)
    else none
  else none

/-- `re.search(r'<(\w+)', line)` (line 212): first `<` followed by a
word character; the action name is the word run after it. -/
def findAction : List Char → Option (List Char)
  | [] => none
  | c :: rest =>
    if c = '<' && (match rest.head? with | some d => isWordChar d | none => false) then
      some (rest.takeWhile isWordChar)
    else findAction rest

/-- `re.match(r'^/\\ (\w+) = (.+)$', line)` (line 220), together with
the guarding `line.startswith('/\\')`: name and raw value text. -/
def matchAssign (l : List Char) : Option (List Char × List Char) :=
  if kSlashBS.isPrefixOf l then
    let rest := l.drop 3
    let w := rest.takeWhile isWordChar
    let rest2 := rest.drop w.length
    if !w.isEmpty && kSpEqSp.isPrefixOf rest2 && !(rest2.drop 3).isEmpty then
      some (w, rest2.drop 3)
    else none
  else none

/-! ### The trace builder -/
/-- A sealed state of the trace (`TraceState` dataclass). -/
structure TraceState where
  state_num : Nat
  action : Option (List Char)
  vars : List (List Char × Value)
  deriving Repr

/-- The complete trace (`Trace` dataclass). -/
structure Trace where
  spec_name : List Char
  invariant_violated : Option (List Char)
  property_violated : Option (List Char)
  states : List TraceState
  deriving Repr

/-- The loop state of `parse_tlc_output`. -/
structure PState where
  invariantViolated : Option (List Char)
  propertyViolated : Option (List Char)
  curNum : Option Nat
  curAction : Option (List Char)
  curVars : List (List Char × Value)
  states : List TraceState
  inTrace : Bool
  deriving Repr

def pInit : PState := ⟨none, none, none, none, [], [], false⟩

/-- `if current_state_num is not None: states.append(...)`. -/
def sealOpen (st : PState) : PState :=
  match st.curNum with
  | some n => { st with states := st.states ++ [⟨n, st.curAction, st.curVars⟩] }
  | none => st

/-- The two violation checks (lines 183-192): they update only the
trace-level fields and fall through. -/
def applyViolations (st : PState) (line : List Char) : PState :=
  let st1 := match searchInvName line with
    | some w => { st with invariantViolated := some w }
    | none => st
  match searchPropName line with
  | some w => { st1 with propertyViolated := some w }
  | none => st1

/-- The body of the `for line in lines` loop, on the already
`rstrip()`ed line.  An exception from `parse_tla_value` propagates. -/
def stepCore (st : PState) (line : List Char) : Except Unit PState :=
  let st2 := applyViolations st line
  if containsSub kMarker line then .ok { st2 with inTrace := true }
  else
    match matchStateHeader line with
    | some n =>
      let st3 := sealOpen st2
      .ok { st3 with curNum := some n, curAction := findAction line,
                     curVars := [], inTrace := true }
    | none =>
      if st2.inTrace then
        match matchAssign line with
        | some nv => do
          let v ← parse_tla_value nv.2
          .ok { st2 with curVars := dictInsert strKeyEq nv.1 v st2.curVars }
        | none => .ok st2
      else .ok st2

/-- The `for line in lines` loop (each line `rstrip()`ed on entry). -/
def runLines (st : PState) : List (List Char) → Except Unit PState
  | [] => .ok st
  | l :: rest =>
    match stepCore st (rstripL l) with
    | .ok st' => runLines st' rest
    | .error e => .error e

/-- `parse_tlc_output` (lines 169-247): returns `none` ("no trace
found") exactly when no state was ever sealed. -/
def parse_tlc_output (lines : List (List Char)) (specName : List Char) :
    Except Unit (Option Trace) :=
  match runLines pInit lines with
  | .error e => .error e
  | .ok st0 =>
    let st := sealOpen st0
    if st.states.isEmpty then .ok none
    else .ok (some ⟨specName, st.invariantViolated, st.propertyViolated, st.states⟩)

/-- `None` → JSON null, string → JSON string. -/
def jsonOfOptStr : Option (List Char) → Json
  | some s => .str s
  | none => .null

/-- `Trace.to_dict` (lines 47-60) composed with `json.dump`. -/
def jsonOfTrace (t : Trace) : Json :=
  .obj [("spec_name".toList, .str t.spec_name),
        ("invariant_violated".toList, jsonOfOptStr t.invariant_violated),
        ("property_violated".toList, jsonOfOptStr t.property_violated),
        ("states".toList, .arr (t.states.map (fun s =>
          .obj [("state_num".toList, .num (s.state_num : Int)),
                ("action".toList, jsonOfOptStr s.action),
                ("variables".toList,
                 .obj (s.vars.map (fun p => (p.1, jsonOfValue p.2))))])))]

/-- The observable outcome of `main` (lines 250-283) past argument and
file handling: exit status together with the emitted document (`none`
when the diagnostic "No counterexample trace found in input" goes to
stderr instead).  An uncaught exception is `.error ()`. -/
def mainRun (lines : List (List Char)) (specName : List Char) :
    Except Unit (Nat × Option Json) :=
  match parse_tlc_output lines specName with
  | .error e => .error e
  | .ok none => .ok (1, none)
  | .ok (some t) => .ok (0, some (jsonOfTrace t))

/-! ### Length bounds

These bounds show the fuel `length + 1` supplied by `parse_tla_value`
always suffices: `sumLen1` measures a list of parts as
`Σ (length + 1)`, and every splitting operation keeps that measure
below the length of the string it split. -/
def sumLen1 (es : List (List Char)) : Nat := (es.map (fun e => e.length + 1)).sum

/-! ### The natural (fuel-free) reading of the recursion

These functions state the source's recursion directly in terms of
`parse_tla_value`; the equations below identify them with the
fuel-indexed loops, certifying that the fuel is invisible. -/
/-- `[parse_tla_value(e) for e in elements]`. -/
def mapParse : List (List Char) → Except Unit (List Value)
  | [] => .ok []
  | e :: rest => do
    let v ← parse_tla_value e
    let vs ← mapParse rest
    .ok (v :: vs)

/-- The Record branch loop in terms of `parse_tla_value`. -/
def recFieldsParse : List (List Char) → List (List Char × Value) →
    Except Unit (List (List Char × Value))
  | [], fs => .ok fs
  | part :: rest, fs =>
    match splitFirstSub kBarArrow part with
    | some fv => do
      let v ← parse_tla_value (strip fv.2)
      recFieldsParse rest (dictInsert strKeyEq (strip fv.1) v fs)
    | none => recFieldsParse rest fs

/-- The Function branch loop in terms of `parse_tla_value`. -/
def funcPairsParse : List (List Char) → List (Value × Value) →
    Except Unit (List (Value × Value))
  | [], m => .ok m
  | part :: rest, m =>
    match splitFirstSub kColonGt (strip part) with
    | some kv => do
      let v ← parse_tla_value (strip kv.2)
      let k ← parse_tla_value (strip kv.1)
      if pyHashable k then funcPairsParse rest (dictInsert pyEqKey k v m)
      else .error ()
    | none => funcPairsParse rest m

/-- Recognizer for JSON arrays (to state what the Function `mapping`
encoding is NOT). -/
def Json.isArr : Json → Bool
  | .arr _ => true
  | _ => false

/-! ### Characterizing Python-dict insertion folds (for the Function
and Record branches) -/
/-- Folding Python dict assignment over a list of pairs. -/
def dictFold {α β : Type} (eqk : α → α → Bool) (m0 : List (α × β))
    (pairs : List (α × β)) : List (α × β) :=
  pairs.foldl (fun m p => dictInsert eqk p.1 p.2 m) m0

/-- The keys of `pairs` in order of first occurrence (under `eqk`),
skipping keys already in `seen`. -/
def keysFirstOccs {α β : Type} (eqk : α → α → Bool) :
    List α → List (α × β) → List α
  | _, [] => []
  | seen, (k, _) :: rest =>
    if seen.any (fun x => eqk x k) then keysFirstOccs eqk seen rest
    else k :: keysFirstOccs eqk (seen ++ [k]) rest

/-- The value of the last pair of `pairs` whose key matches `k`. -/
def lastVal {α β : Type} (eqk : α → α → Bool) (k : α) :
    List (α × β) → Option β
  | [] => none
  | p :: rest =>
    match lastVal eqk k rest with
    | some v => some v
    | none => if eqk p.1 k then some p.2 else none

/-- The parsed (key, value) pairs of the Function branch in textual
order, before dict insertion (value parsed before key, unhashable key
raising, exactly as in the source loop). -/
def collectFuncPairs : List (List Char) → Except Unit (List (Value × Value))
  | [] => .ok []
  | part :: rest =>
    match splitFirstSub kColonGt (strip part) with
    | some kv => do
      let v ← parse_tla_value (strip kv.2)
      let k ← parse_tla_value (strip kv.1)
      if pyHashable k then do
        let ps ← collectFuncPairs rest
        .ok ((k, v) :: ps)
      else .error ()
    | none => collectFuncPairs rest

/-- The parsed (name, value) fields of the Record branch in textual
order, before dict insertion: a part contributes exactly when it
contains `' |-> '` (name = text left of the first occurrence, value =
recursive parse of the right, both stripped); other parts are
dropped. -/
def collectRecFields : List (List Char) → Except Unit (List (List Char × Value))
  | [] => .ok []
  | part :: rest =>
    match splitFirstSub kBarArrow part with
    | some fv => do
      let v ← parse_tla_value (strip fv.2)
      let ps ← collectRecFields rest
      .ok ((strip fv.1, v) :: ps)
    | none => collectRecFields rest

/-! ### Segment view of the trace builder (for the claims about
sealed states, indices, and exit behavior) -/
/-- A (processed) line acts as a state header exactly when it is not
swallowed by the trace-start marker check and matches
`^State (\d+):`. -/
def effHeader (l : List Char) : Bool :=
  !containsSub kMarker l && (matchStateHeader l).isSome

/-- The header number of an effective header line. -/
def hNum (l : List Char) : Nat := (matchStateHeader l).getD 0

/-- Each effective header line paired with its segment: the lines
strictly between it and the next effective header (or end of
input). -/
def segsOf : List (List Char) → List (List Char × List (List Char))
  | [] => []
  | l :: rest =>
    if effHeader l then
      (l, rest.takeWhile (fun x => !effHeader x)) :: segsOf rest
    else segsOf rest

/-- The variables accumulated over one segment: assignment lines
(not swallowed by the marker check) parsed and inserted with Python
dict semantics; all other lines contribute nothing. -/
def varsOfSeg : List (List Char) → List (List Char × Value) →
    Except Unit (List (List Char × Value))
  | [], vs => .ok vs
  | l :: rest, vs =>
    if containsSub kMarker l then varsOfSeg rest vs
    else
      match matchAssign l with
      | some nv => do
        let v ← parse_tla_value nv.2
        varsOfSeg rest (dictInsert strKeyEq nv.1 v vs)
      | none => varsOfSeg rest vs

/-- The sealed states predicted from the segment view. -/
def specStatesM : List (List Char × List (List Char)) →
    Except Unit (List TraceState)
  | [] => .ok []
  | (h, seg) :: rest => do
    let vs ← varsOfSeg seg []
    let sts ← specStatesM rest
    .ok (⟨hNum h, findAction h, vs⟩ :: sts)

/-- `runLines` on raw lines is the raw-step loop on `rstrip()`ed
lines. -/
def runCore (st : PState) : List (List Char) → Except Unit PState
  | [] => .ok st
  | l :: rest =>
    match stepCore st l with
    | .ok st' => runCore st' rest
    | .error e => .error e

/-- Non-decreasing test on a list of numbers. -/
def nonDec : List Nat → Bool
  | [] => true
  | [_] => true
  | a :: b :: r => decide (a ≤ b) && nonDec (b :: r)

/-! ### The `split_tla_list` round-trip (re-join with `, ` and
re-split)

The proof factors the scan into: (a) a transport lemma — the scan's
branch decisions depend only on the depth, the in-string flag, and
whether the previous character was a backslash, so a flush-free scan
of the same text from equivalent states accumulates the same text;
(b) an invariant of the original scan — every produced element
re-scans from a fresh state without flushing, ending balanced
(intermediate elements) or anywhere (the final element); (c) a rejoin
lemma replaying the elements around the inserted `, ` separators. -/
/-- Python `', '.join(elements)`. -/
def joinCS : List (List Char) → List Char
  | [] => []
  | [e] => e
  | e :: rest => e ++ [',', ' '] ++ joinCS rest

/-- "Bracket-balanced": along the scan the depth never goes negative,
and the text ends at depth zero outside any string. -/
def scanBalanced : ScanSt → List Char → Bool
  | st, [] => decide (st.depth = 0) && !st.inStr
  | st, c :: rest =>
    decide (0 ≤ (stepScan st c).depth) && scanBalanced (stepScan st c) rest

/-- "No delimiter characters inside quoted strings": while the
in-string flag is set, no bracket and no comma is read. -/
def scanStringsClean : ScanSt → List Char → Bool
  | _, [] => true
  | st, c :: rest =>
    (!(st.inStr && (openDelims.contains c || closeDelims.contains c || c = ','))) &&
      scanStringsClean (stepScan st c) rest

/-- A fresh scan state as seen right after an inserted `, ` separator:
previous character a space, empty accumulator, depth zero, outside
strings. -/
def freshScan : ScanSt := ⟨some ' ', [], 0, [], false⟩

/-- The element re-scans from fresh without flushing, accumulating
exactly itself. -/
def NeutralLast (e : List Char) : Prop :=
  (runScan freshScan e).elems = [] ∧ (runScan freshScan e).cur = e

/-- Additionally the re-scan ends at depth zero outside strings (true
of every element that was terminated by a top-level comma). -/
def Neutral (e : List Char) : Prop :=
  NeutralLast e ∧ (runScan freshScan e).depth = 0 ∧
    (runScan freshScan e).inStr = false

/-- All elements re-scan neutrally; the last only needs to avoid
flushing. -/
def chainGood : List (List Char) → Prop
  | [] => True
  | [e] => NeutralLast e
  | e :: rest => Neutral e ∧ chainGood rest

/-- The states whose branch decisions agree: same depth, same
in-string flag, same backslash-ness of the previous character. -/
def stEquiv (st st' : ScanSt) : Prop :=
  st.depth = st'.depth ∧ st.inStr = st'.inStr ∧
    ((st.prev = some '\\') ↔ (st'.prev = some '\\'))

/-- The accumulator re-scans from fresh without flushing, reproducing
the current depth and string state, and agreeing on backslash-ness of
the previous character. -/
def CurFacts (st : ScanSt) : Prop :=
  (runScan freshScan st.cur).elems = [] ∧
  (runScan freshScan st.cur).cur = st.cur ∧
  (runScan freshScan st.cur).depth = st.depth ∧
  (runScan freshScan st.cur).inStr = st.inStr ∧
  ((st.prev = some '\\') ↔ ((runScan freshScan st.cur).prev = some '\\'))

/-- Invariant of the original scan: every non-empty flushed element is
neutral, and the accumulator replays. -/
def GoodSt (st : ScanSt) : Prop :=
  (∀ e ∈ st.elems, e ≠ [] → Neutral e) ∧ CurFacts st

theorem jsonOfValue_bool (b : Bool) : jsonOfValue (.bool b) = .bool b := by rw [jsonOfValue]

theorem jsonOfValue_int (n : Int) : jsonOfValue (.int n) = .num n := by rw [jsonOfValue]

theorem jsonOfValue_str (s : List Char) : jsonOfValue (.str s) = .str s := by rw [jsonOfValue]

theorem jsonOfValue_null : jsonOfValue .null = .null := by rw [jsonOfValue]

theorem jsonOfValue_raw (s : List Char) : jsonOfValue (.raw s) = .str s := by rw [jsonOfValue]

theorem jsonOfValue_set (es : List Value) :
    jsonOfValue (.set es) = .obj [("type".toList, .str "set".toList),
      ("elements".toList, .arr (es.map jsonOfValue))] := by
  rw [jsonOfValue]; simp [List.map_attach]

theorem jsonOfValue_seq (es : List Value) :
    jsonOfValue (.seq es) = .obj [("type".toList, .str "sequence".toList),
      ("elements".toList, .arr (es.map jsonOfValue))] := by
  rw [jsonOfValue]; simp [List.map_attach]

theorem jsonOfValue_record (fs : List (List Char × Value)) :
    jsonOfValue (.record fs) = .obj [("type".toList, .str "record".toList),
      ("fields".toList, .obj (fs.map (fun p => (p.1, jsonOfValue p.2))))] := by
  rw [jsonOfValue]; simp [List.map_attach]

theorem jsonOfValue_func (m : List (Value × Value)) :
    jsonOfValue (.func m) = .obj [("type".toList, .str "function".toList),
      ("mapping".toList, .obj (m.map (fun p => (jsonKeyOfValue p.1, jsonOfValue p.2))))] := by
  rw [jsonOfValue]; simp [List.map_attach]

theorem sumLen1_append (xs ys : List (List Char)) :
    sumLen1 (xs ++ ys) = sumLen1 xs + sumLen1 ys := by
  simp [sumLen1]

theorem sumLen1_cons (e : List Char) (es : List (List Char)) :
    sumLen1 (e :: es) = e.length + 1 + sumLen1 es := by
  simp [sumLen1]

theorem sumLen1_filter_le (p : List Char → Bool) (es : List (List Char)) :
    sumLen1 (es.filter p) ≤ sumLen1 es := by
  induction es with
  | nil => simp [sumLen1]
  | cons e es ih =>
    by_cases h : p e <;> simp [List.filter_cons, h, sumLen1_cons] <;> omega

theorem mem_le_sumLen1 {e : List Char} {es : List (List Char)} (h : e ∈ es) :
    e.length + 1 ≤ sumLen1 es := by
  induction es with
  | nil => cases h
  | cons x xs ih =>
    rcases List.mem_cons.mp h with h | h
    · subst h; simp [sumLen1_cons]
    · have := ih h; simp [sumLen1_cons]; omega

theorem lstripL_length (s : List Char) : (lstripL s).length ≤ s.length :=
  (@List.dropWhile_sublist _ s isWS).length_le

theorem rstripL_length (s : List Char) : (rstripL s).length ≤ s.length := by
  have h := (@List.dropWhile_sublist _ s.reverse isWS).length_le
  simpa [rstripL] using h

theorem strip_length (s : List Char) : (strip s).length ≤ s.length :=
  le_trans (rstripL_length _) (lstripL_length _)

theorem stepScan_measure (st : ScanSt) (c : Char) :
    sumLen1 (stepScan st c).elems + (stepScan st c).cur.length ≤
      sumLen1 st.elems + st.cur.length + 1 := by
  unfold stepScan
  split_ifs <;>
    simp [sumLen1_append, sumLen1_cons, sumLen1] <;>
    have := strip_length st.cur <;> omega

theorem runScan_measure (s : List Char) (st : ScanSt) :
    sumLen1 (runScan st s).elems + (runScan st s).cur.length ≤
      sumLen1 st.elems + st.cur.length + s.length := by
  induction s generalizing st with
  | nil => simp [runScan]
  | cons c s ih =>
    have h1 : runScan st (c :: s) = runScan (stepScan st c) s := rfl
    rw [h1]
    have h2 := ih (stepScan st c)
    have h3 := stepScan_measure st c
    simp only [List.length_cons]
    omega

theorem split_tla_list_sumLen1 (s : List Char) :
    sumLen1 (split_tla_list s) ≤ s.length + 1 := by
  unfold split_tla_list
  have h := runScan_measure s scanStart
  have h0 : sumLen1 scanStart.elems = 0 := rfl
  have h1 : scanStart.cur.length = 0 := rfl
  rw [h0, h1] at h
  refine le_trans (sumLen1_filter_le _ _) ?_
  rw [sumLen1_append]
  by_cases hc : (runScan scanStart s).cur.isEmpty
  · have h2 : sumLen1 (if (runScan scanStart s).cur.isEmpty then
        ([] : List (List Char)) else [strip (runScan scanStart s).cur]) = 0 := by
      rw [if_pos hc]; rfl
    rw [h2]; omega
  · have h2 : sumLen1 (if (runScan scanStart s).cur.isEmpty then
        ([] : List (List Char)) else [strip (runScan scanStart s).cur]) =
        (strip (runScan scanStart s).cur).length + 1 := by
      rw [if_neg hc]; simp [sumLen1]
    rw [h2]
    have h3 := strip_length (runScan scanStart s).cur
    omega

theorem mem_split_tla_list_length {e : List Char} {s : List Char}
    (h : e ∈ split_tla_list s) : e.length ≤ s.length := by
  have h1 := mem_le_sumLen1 h
  have h2 := split_tla_list_sumLen1 s
  omega

theorem splitFirstSub_lengths {pat s a b : List Char}
    (h : splitFirstSub pat s = some (a, b)) :
    a.length + pat.length + b.length = s.length := by
  induction s generalizing a with
  | nil =>
    simp only [splitFirstSub] at h
    by_cases hp : pat.isEmpty <;> simp [hp] at h
    · obtain ⟨rfl, rfl⟩ := h
      simp [List.isEmpty_iff.mp hp]
  | cons c rest ih =>
    simp only [splitFirstSub] at h
    by_cases hp : pat.isPrefixOf (c :: rest)
    · simp only [hp, if_true] at h
      obtain ⟨rfl, rfl⟩ := h
      have hle : pat.length ≤ (c :: rest).length :=
        (List.isPrefixOf_iff_prefix.mp hp).length_le
      simp only [List.length_nil, List.length_drop]
      omega
    · simp only [hp, if_false] at h
      cases h2 : splitFirstSub pat rest with
      | none => rw [h2] at h; cases h
      | some ab =>
        obtain ⟨a', b'⟩ := ab
        rw [h2] at h
        simp at h
        obtain ⟨rfl, rfl⟩ := h
        have := ih h2
        simp only [List.length_cons]
        omega

theorem splitAtAtAux_sum (s acc : List Char) :
    sumLen1 (splitAtAtAux s acc) ≤ s.length + acc.length + 1 := by
  induction s, acc using splitAtAtAux.induct with
  | case1 acc => simp [splitAtAtAux, sumLen1]
  | case2 c acc => simp [splitAtAtAux, sumLen1]; omega
  | case3 a b rest acc h ih =>
    rw [splitAtAtAux, if_pos h, sumLen1_cons]
    simp only [List.length_cons, List.length_reverse, List.length_nil] at ih ⊢
    omega
  | case4 a b rest acc h ih =>
    rw [splitAtAtAux, if_neg h]
    simp only [List.length_cons] at ih ⊢
    omega

theorem head?_some_len {l : List Char} {a : Char} (h : l.head? = some a) :
    1 ≤ l.length := by
  cases l <;> simp_all

theorem two_le_len {l : List Char} {a b : Char} (h1 : l.head? = some a)
    (h2 : l.getLast? = some b) (hne : a ≠ b) : 2 ≤ l.length := by
  match l with
  | [] => simp at h1
  | [c] =>
    simp at h1 h2
    exact absurd (h1.symm.trans h2) hne
  | c :: d :: t => simp [List.length_cons]

theorem bound_inner1 {s : List Char} (h : 2 ≤ s.length) :
    sumLen1 (split_tla_list (strip ((s.drop 1).dropLast))) < s.length := by
  have b1 := split_tla_list_sumLen1 (strip ((s.drop 1).dropLast))
  have b2 := strip_length ((s.drop 1).dropLast)
  have b3 : ((s.drop 1).dropLast).length = s.length - 1 - 1 := by
    simp [List.length_dropLast, List.length_drop]
  omega

theorem bound_inner2 {s : List Char} (h : 2 ≤ s.length) :
    sumLen1 (split_tla_list (strip (((s.drop 2).dropLast).dropLast))) < s.length := by
  have b1 := split_tla_list_sumLen1 (strip (((s.drop 2).dropLast).dropLast))
  have b2 := strip_length (((s.drop 2).dropLast).dropLast)
  have b3 : (((s.drop 2).dropLast).dropLast).length = s.length - 2 - 1 - 1 := by
    simp [List.length_dropLast, List.length_drop]
  omega

theorem bound_innerAtAt {s : List Char} (h : 2 ≤ s.length) :
    sumLen1 (splitAtAt (strip ((s.drop 1).dropLast))) < s.length := by
  have b1 := splitAtAtAux_sum (strip ((s.drop 1).dropLast)) []
  have b2 := strip_length ((s.drop 1).dropLast)
  have b3 : ((s.drop 1).dropLast).length = s.length - 1 - 1 := by
    simp [List.length_dropLast, List.length_drop]
  simp only [splitAtAt] at *
  simp only [List.length_nil] at b1
  omega

set_option maxHeartbeats 1000000 in
/-- The recursive loops are only applied to part lists whose measure
is below the input length, so pointwise agreement there determines
`parseStep`. -/
theorem parseStep_congr {fL gL fR gR fF gF} (s0 : List Char)
    (hL : ∀ es, sumLen1 es < s0.length → fL es = gL es)
    (hR : ∀ parts fs, sumLen1 parts < s0.length → fR parts fs = gR parts fs)
    (hF : ∀ parts mp, sumLen1 parts < s0.length → fF parts mp = gF parts mp) :
    parseStep fL fR fF s0 = parseStep gL gR gF s0 := by
  have hstrip := strip_length s0
  simp only [parseStep]
  split_ifs with h1 h2 h3 h4 h5 h5e h6 h6e h7 h7e h8 h9
  all_goals try rfl
  · -- Set branch
    have hlen : 2 ≤ (strip s0).length := by
      rcases Bool.and_eq_true_iff.mp h5 with ⟨ha, hb⟩
      exact two_le_len (of_decide_eq_true ha) (of_decide_eq_true hb) (by decide)
    rw [hL _ (by have := bound_inner1 hlen; omega)]
  · -- Sequence branch
    have hlen : 2 ≤ (strip s0).length := by
      have hpre : kLtLt.isPrefixOf (strip s0) = true :=
        (Bool.and_eq_true_iff.mp h6).1
      have hl := (List.isPrefixOf_iff_prefix.mp hpre).length_le
      have : kLtLt.length = 2 := rfl
      omega
    rw [hL _ (by have := bound_inner2 hlen; omega)]
  · -- Record branch
    have hlen : 2 ≤ (strip s0).length := by
      rcases Bool.and_eq_true_iff.mp h7 with ⟨ha, hb⟩
      exact two_le_len (of_decide_eq_true ha) (of_decide_eq_true hb) (by decide)
    rw [hR _ _ (by have := bound_inner1 hlen; omega)]
  · -- Function branch
    have hlen : 2 ≤ (strip s0).length := by
      rcases Bool.and_eq_true_iff.mp h8 with ⟨ha, hb⟩
      rcases Bool.and_eq_true_iff.mp ha with ⟨ha1, ha2⟩
      exact two_le_len (of_decide_eq_true ha1) (of_decide_eq_true ha2) (by decide)
    rw [hF _ _ (by have := bound_innerAtAt hlen; omega)]

/-- Fuel does not matter once it exceeds the measure of the argument:
the fuel-indexed functions agree with the unbounded recursion of the
source. -/
theorem parse_congr (n : Nat) :
    (∀ m s, s.length < n → s.length < m → parseV n s = parseV m s) ∧
    (∀ m es, sumLen1 es < n → sumLen1 es < m → parseListV n es = parseListV m es) ∧
    (∀ m parts fs, sumLen1 parts < n → sumLen1 parts < m →
      parseRecV n parts fs = parseRecV m parts fs) ∧
    (∀ m parts mp, sumLen1 parts < n → sumLen1 parts < m →
      parseFuncV n parts mp = parseFuncV m parts mp) := by
  induction n using Nat.strong_induction_on with
  | _ n IH =>
  refine ⟨?_, ?_, ?_, ?_⟩
  · intro m s hn hm
    obtain ⟨n₀, rfl⟩ : ∃ k, n = k + 1 := ⟨n - 1, by omega⟩
    obtain ⟨m₀, rfl⟩ : ∃ k, m = k + 1 := ⟨m - 1, by omega⟩
    show parseStep (parseListV n₀) (parseRecV n₀) (parseFuncV n₀) s =
      parseStep (parseListV m₀) (parseRecV m₀) (parseFuncV m₀) s
    refine parseStep_congr s ?_ ?_ ?_
    · intro es hes
      exact (IH n₀ (by omega)).2.1 m₀ es (by omega) (by omega)
    · intro parts fs hp
      exact (IH n₀ (by omega)).2.2.1 m₀ parts fs (by omega) (by omega)
    · intro parts mp hp
      exact (IH n₀ (by omega)).2.2.2 m₀ parts mp (by omega) (by omega)
  · intro m es hn hm
    obtain ⟨n₀, rfl⟩ : ∃ k, n = k + 1 := ⟨n - 1, by omega⟩
    obtain ⟨m₀, rfl⟩ : ∃ k, m = k + 1 := ⟨m - 1, by omega⟩
    cases es with
    | nil => rfl
    | cons e rest =>
      have he : sumLen1 (e :: rest) = e.length + 1 + sumLen1 rest := sumLen1_cons e rest
      show (do
        let v ← parseV n₀ e
        let vs ← parseListV n₀ rest
        .ok (v :: vs) : Except Unit (List Value)) = (do
        let v ← parseV m₀ e
        let vs ← parseListV m₀ rest
        .ok (v :: vs))
      rw [(IH n₀ (by omega)).1 m₀ e (by omega) (by omega),
          (IH n₀ (by omega)).2.1 m₀ rest (by omega) (by omega)]
  · intro m parts fs hn hm
    obtain ⟨n₀, rfl⟩ : ∃ k, n = k + 1 := ⟨n - 1, by omega⟩
    obtain ⟨m₀, rfl⟩ : ∃ k, m = k + 1 := ⟨m - 1, by omega⟩
    cases parts with
    | nil => rfl
    | cons part rest =>
      have he : sumLen1 (part :: rest) = part.length + 1 + sumLen1 rest :=
        sumLen1_cons part rest
      show parseRecV (n₀ + 1) (part :: rest) fs = parseRecV (m₀ + 1) (part :: rest) fs
      rw [parseRecV, parseRecV]
      cases hsp : splitFirstSub kBarArrow part with
      | none => exact (IH n₀ (by omega)).2.2.1 m₀ rest fs (by omega) (by omega)
      | some fv =>
        obtain ⟨f, val⟩ := fv
        have hval : val.length + kBarArrow.length ≤ part.length := by
          have := splitFirstSub_lengths hsp
          omega
        have hkb : kBarArrow.length = 5 := rfl
        have hsv := strip_length val
        dsimp only
        rw [(IH n₀ (by omega)).1 m₀ (strip val) (by omega) (by omega)]
        cases parseV m₀ (strip val) with
        | error e => rfl
        | ok v =>
          show parseRecV n₀ rest _ = parseRecV m₀ rest _
          exact (IH n₀ (by omega)).2.2.1 m₀ rest _ (by omega) (by omega)
  · intro m parts mp hn hm
    obtain ⟨n₀, rfl⟩ : ∃ k, n = k + 1 := ⟨n - 1, by omega⟩
    obtain ⟨m₀, rfl⟩ : ∃ k, m = k + 1 := ⟨m - 1, by omega⟩
    cases parts with
    | nil => rfl
    | cons part rest =>
      have he : sumLen1 (part :: rest) = part.length + 1 + sumLen1 rest :=
        sumLen1_cons part rest
      show parseFuncV (n₀ + 1) (part :: rest) mp = parseFuncV (m₀ + 1) (part :: rest) mp
      rw [parseFuncV, parseFuncV]
      have hsp0 := strip_length part
      cases hsp : splitFirstSub kColonGt (strip part) with
      | none => exact (IH n₀ (by omega)).2.2.2 m₀ rest mp (by omega) (by omega)
      | some kv =>
        obtain ⟨kt, vt⟩ := kv
        have hlen : kt.length + kColonGt.length + vt.length = (strip part).length :=
          splitFirstSub_lengths hsp
        have hkb : kColonGt.length = 2 := rfl
        have hsv := strip_length vt
        have hsk := strip_length kt
        dsimp only
        rw [(IH n₀ (by omega)).1 m₀ (strip vt) (by omega) (by omega)]
        cases parseV m₀ (strip vt) with
        | error e => rfl
        | ok v =>
          show (do
            let k ← parseV n₀ (strip kt)
            if pyHashable k then parseFuncV n₀ rest (dictInsert pyEqKey k v mp)
            else .error () : Except Unit (List (Value × Value))) = _
          rw [(IH n₀ (by omega)).1 m₀ (strip kt) (by omega) (by omega)]
          cases parseV m₀ (strip kt) with
          | error e => rfl
          | ok k =>
            simp only [bind, Except.bind]
            by_cases hh : pyHashable k
            · rw [if_pos hh, if_pos hh]
              exact (IH n₀ (by omega)).2.2.2 m₀ rest _ (by omega) (by omega)
            · rw [if_neg hh, if_neg hh]

theorem parseListV_eq {n : Nat} {es : List (List Char)} (h : sumLen1 es < n) :
    parseListV n es = mapParse es := by
  induction es generalizing n with
  | nil =>
    obtain ⟨n₀, rfl⟩ : ∃ k, n = k + 1 := ⟨n - 1, by omega⟩
    rfl
  | cons e rest ih =>
    obtain ⟨n₀, rfl⟩ : ∃ k, n = k + 1 := ⟨n - 1, by omega⟩
    have hc := sumLen1_cons e rest
    show (do
      let v ← parseV n₀ e
      let vs ← parseListV n₀ rest
      .ok (v :: vs) : Except Unit (List Value)) = _
    rw [(parse_congr n₀).1 (e.length + 1) e (by omega) (by omega),
        ih (by omega)]
    rfl

theorem parseRecV_eq {n : Nat} {parts : List (List Char)}
    (fs : List (List Char × Value)) (h : sumLen1 parts < n) :
    parseRecV n parts fs = recFieldsParse parts fs := by
  induction parts generalizing n fs with
  | nil =>
    obtain ⟨n₀, rfl⟩ : ∃ k, n = k + 1 := ⟨n - 1, by omega⟩
    rfl
  | cons part rest ih =>
    obtain ⟨n₀, rfl⟩ : ∃ k, n = k + 1 := ⟨n - 1, by omega⟩
    have hc := sumLen1_cons part rest
    rw [parseRecV, recFieldsParse]
    cases hsp : splitFirstSub kBarArrow part with
    | none => exact ih fs (by omega)
    | some fv =>
      obtain ⟨f, val⟩ := fv
      have hval : val.length + kBarArrow.length ≤ part.length := by
        have := splitFirstSub_lengths hsp
        omega
      have hkb : kBarArrow.length = 5 := rfl
      have hsv := strip_length val
      dsimp only
      rw [(parse_congr n₀).1 ((strip val).length + 1) (strip val) (by omega) (by omega)]
      show (parse_tla_value (strip val)) >>= _ = (parse_tla_value (strip val)) >>= _
      cases parse_tla_value (strip val) with
      | error e => rfl
      | ok v =>
        simp only [bind, Except.bind]
        exact ih _ (by omega)

theorem parseFuncV_eq {n : Nat} {parts : List (List Char)}
    (mp : List (Value × Value)) (h : sumLen1 parts < n) :
    parseFuncV n parts mp = funcPairsParse parts mp := by
  induction parts generalizing n mp with
  | nil =>
    obtain ⟨n₀, rfl⟩ : ∃ k, n = k + 1 := ⟨n - 1, by omega⟩
    rfl
  | cons part rest ih =>
    obtain ⟨n₀, rfl⟩ : ∃ k, n = k + 1 := ⟨n - 1, by omega⟩
    have hc := sumLen1_cons part rest
    rw [parseFuncV, funcPairsParse]
    have hsp0 := strip_length part
    cases hsp : splitFirstSub kColonGt (strip part) with
    | none => exact ih mp (by omega)
    | some kv =>
      obtain ⟨kt, vt⟩ := kv
      have hlen : kt.length + kColonGt.length + vt.length = (strip part).length :=
        splitFirstSub_lengths hsp
      have hkb : kColonGt.length = 2 := rfl
      have hsv := strip_length vt
      have hsk := strip_length kt
      dsimp only
      rw [(parse_congr n₀).1 ((strip vt).length + 1) (strip vt) (by omega) (by omega)]
      show (parse_tla_value (strip vt)) >>= _ = (parse_tla_value (strip vt)) >>= _
      cases parse_tla_value (strip vt) with
      | error e => rfl
      | ok v =>
        simp only [bind, Except.bind]
        rw [(parse_congr n₀).1 ((strip kt).length + 1) (strip kt) (by omega) (by omega)]
        have hre : parseV ((strip kt).length + 1) (strip kt) = parse_tla_value (strip kt) := rfl
        rw [hre]
        cases parse_tla_value (strip kt) with
        | error e => rfl
        | ok k =>
          simp only [bind, Except.bind]
          by_cases hh : pyHashable k
          · rw [if_pos hh, if_pos hh]
            exact ih _ (by omega)
          · rw [if_neg hh, if_neg hh]

theorem getLast?_cons_concat (a b : Char) (mid : List Char) :
    (a :: (mid ++ [b])).getLast? = some b := by
  rw [← List.cons_append]; exact List.getLast?_concat (a :: mid)

/-- The Record branch (lines 99-112): an input whose stripped text is
`[` … `]` parses to a record built by `recFieldsParse` over the
split of the stripped interior. -/
theorem parse_record_eq {s mid : List Char} (h : strip s = '[' :: (mid ++ [']'])) :
    parse_tla_value s =
      (if (strip mid).isEmpty then .ok (.record [])
       else (recFieldsParse (split_tla_list (strip mid)) []).map .record) := by
  have h2 : (strip s).length = mid.length + 2 := by simp [h]
  have hs := strip_length s
  show parseStep (parseListV s.length) (parseRecV s.length) (parseFuncV s.length) s = _
  simp only [parseStep, h]
  rw [if_neg (by simp [kTRUE]), if_neg (by simp [kFALSE]),
      if_neg (by simp [isIntLit]), if_neg (by simp),
      if_neg (by simp), if_neg (by simp [kLtLt, List.isPrefixOf]),
      if_pos (by simp [getLast?_cons_concat])]
  have hinner : strip (('[' :: (mid ++ [']'])).drop 1).dropLast = strip mid := by
    simp [List.dropLast_concat]
  rw [hinner]
  by_cases he : (strip mid).isEmpty
  · rw [if_pos he, if_pos he]
  · rw [if_neg he, if_neg he]
    have hb : sumLen1 (split_tla_list (strip mid)) < s.length := by
      have hbi := @bound_inner1 (strip s) (by omega)
      rw [h] at hbi
      rw [hinner] at hbi
      have hl : ('[' :: (mid ++ [']'])).length = mid.length + 2 := by simp
      omega
    rw [parseRecV_eq [] hb]

/-- The Function branch (lines 114-124): an input whose stripped text
is `(` … `)` and contains `:>` parses to a function built by
`funcPairsParse` over the `@@`-split of the stripped interior. -/
theorem parse_function_eq {s mid : List Char} (h : strip s = '(' :: (mid ++ [')']))
    (hc : containsSub kColonGt (strip s) = true) :
    parse_tla_value s = (funcPairsParse (splitAtAt (strip mid)) []).map .func := by
  have h2 : (strip s).length = mid.length + 2 := by simp [h]
  have hs := strip_length s
  rw [h] at hc
  show parseStep (parseListV s.length) (parseRecV s.length) (parseFuncV s.length) s = _
  simp only [parseStep, h]
  rw [if_neg (by simp [kTRUE]), if_neg (by simp [kFALSE]),
      if_neg (by simp [isIntLit]), if_neg (by simp),
      if_neg (by simp), if_neg (by simp [kLtLt, List.isPrefixOf]),
      if_neg (by simp), if_pos (by simp [getLast?_cons_concat, hc])]
  have hinner : strip (('(' :: (mid ++ [')'])).drop 1).dropLast = strip mid := by
    simp [List.dropLast_concat]
  rw [hinner]
  have hb : sumLen1 (splitAtAt (strip mid)) < s.length := by
    have hbi := @bound_innerAtAt (strip s) (by omega)
    rw [h] at hbi
    rw [hinner] at hbi
    have hl : ('(' :: (mid ++ [')'])).length = mid.length + 2 := by simp
    omega
  rw [parseFuncV_eq [] hb]

/-- C1: the spec claims `parse_tla_value` is total ("never raises"),
with unsupported shapes degrading to the raw-string fallback.  The
code violates this: in a parenthesized function literal whose key text
parses to a composite value (a Python dict, e.g. the set `{1}`), the
assignment `mapping[parse_tla_value(key)] = ...` raises
`TypeError: unhashable type: 'dict'`.  This theorem evaluates the
embedding at such an input: the result is the embedded exception, not
a `Value`. -/
theorem c1_parse_raises_on_unhashable_key :
    parse_tla_value "(\x7b1\x7d :> 2)".toList = .error () := rfl

/-- C5: the spec claims the scan matches `<<`/`>>` as single tokens
(one depth change each).  The code instead treats every `<` and `>`
character as an independent one-character delimiter: in
`x |-> 1, y |-> 2` the two `>` of `|->` drive the depth negative so
the top-level comma is never seen (one element instead of two), and in
`a < b, c` a lone `<` raises the depth so the comma is not a
separator.  This theorem evaluates the code at both inputs. -/
theorem c5_angle_brackets_counted_per_character :
    split_tla_list "x |-> 1, y |-> 2".toList = ["x |-> 1, y |-> 2".toList] ∧
    split_tla_list "a < b, c".toList = ["a < b, c".toList] := by
  exact ⟨rfl, rfl⟩

/-- C3 counterexample: the document encodes the function `(1 :> 2)` as
`{"type": "function", "mapping": {"1": 2}}` — the mapping is a JSON
object with the key coerced to the string `"1"`, not the claimed
ordered list of `[key, value]` pairs. -/
theorem c3_counterexample_mapping_is_object :
    parse_tla_value "(1 :> 2)".toList = .ok (.func [(.int 1, .int 2)]) ∧
    jsonOfValue (.func [(.int 1, .int 2)]) =
      .obj [("type".toList, .str "function".toList),
            ("mapping".toList, .obj [("1".toList, .num 2)])] ∧
    Json.isArr (.obj [("1".toList, .num 2)]) = false := by
  refine ⟨rfl, ?_, rfl⟩
  rw [jsonOfValue_func]
  simp only [List.map_cons, List.map_nil]
  rw [jsonOfValue_int]
  rfl

/-- C3 (amended): every Function value is encoded as an object
`{"type": "function", "mapping": {...}}` whose `mapping` is a JSON
*object* (not an array of pairs): one member per entry, in mapping
order, the member name being `json.dump`'s string coercion of the key
and the member value the encoding of the mapped value. -/
theorem c3_function_mapping_encoded_as_object (m : List (Value × Value)) :
    jsonOfValue (.func m) =
      .obj [("type".toList, .str "function".toList),
            ("mapping".toList,
             .obj (m.map (fun p => (jsonKeyOfValue p.1, jsonOfValue p.2))))] ∧
    Json.isArr (.obj (m.map (fun p => (jsonKeyOfValue p.1, jsonOfValue p.2)))) = false :=
  ⟨jsonOfValue_func m, rfl⟩

theorem map_fst_map_update {α β : Type} (eqk : α → α → Bool) (k : α) (v : β)
    (m : List (α × β)) :
    (m.map (fun p => if eqk p.1 k then (p.1, v) else p)).map Prod.fst =
      m.map Prod.fst := by
  induction m with
  | nil => rfl
  | cons p rest ih =>
    simp only [List.map_cons, ih]
    by_cases hp : eqk p.1 k <;> simp [hp]

theorem map_fst_dictInsert_of_mem {α β : Type} (eqk : α → α → Bool) (k : α) (v : β)
    (m : List (α × β)) (h : m.any (fun p => eqk p.1 k) = true) :
    (dictInsert eqk k v m).map Prod.fst = m.map Prod.fst := by
  unfold dictInsert
  rw [if_pos h]
  exact map_fst_map_update eqk k v m

theorem any_map_fst {α β : Type} (eqk : α → α → Bool) (k : α) (m : List (α × β)) :
    (m.map Prod.fst).any (fun x => eqk x k) = m.any (fun p => eqk p.1 k) := by
  induction m with
  | nil => rfl
  | cons q r ih => simp [List.any_cons, ih]

theorem keys_dictFold {α β : Type} (eqk : α → α → Bool)
    (pairs : List (α × β)) :
    ∀ m : List (α × β),
    (dictFold eqk m pairs).map Prod.fst =
      m.map Prod.fst ++ keysFirstOccs eqk (m.map Prod.fst) pairs := by
  induction pairs with
  | nil => intro m; simp [dictFold, keysFirstOccs]
  | cons p rest ih =>
    intro m
    obtain ⟨k, v⟩ := p
    have hstep : dictFold eqk m ((k, v) :: rest) =
        dictFold eqk (dictInsert eqk k v m) rest := rfl
    rw [hstep, keysFirstOccs]
    have hcond : (m.map Prod.fst).any (fun x => eqk x k) =
        m.any (fun p => eqk p.1 k) := any_map_fst eqk k m
    by_cases h : m.any (fun p => eqk p.1 k)
    · rw [if_pos (hcond ▸ h)]
      rw [ih (dictInsert eqk k v m), map_fst_dictInsert_of_mem eqk k v m h]
    · rw [if_neg (by rw [hcond]; exact h)]
      have hins : dictInsert eqk k v m = m ++ [(k, v)] := by
        unfold dictInsert
        rw [if_neg h]
      rw [ih (dictInsert eqk k v m), hins]
      simp

theorem mem_dictInsert {α β : Type} (eqk : α → α → Bool) (k : α) (v : β)
    (m : List (α × β)) {e : α × β} (he : e ∈ dictInsert eqk k v m) :
    (∃ q ∈ m, (if eqk q.1 k then (q.1, v) else q) = e) ∨
      (m.any (fun p => eqk p.1 k) = false ∧ (e ∈ m ∨ e = (k, v))) := by
  unfold dictInsert at he
  by_cases h : m.any (fun p => eqk p.1 k)
  · rw [if_pos h] at he
    left
    exact List.mem_map.mp he
  · rw [if_neg h] at he
    right
    refine ⟨Bool.eq_false_iff.mpr h, ?_⟩
    rcases List.mem_append.mp he with h1 | h1
    · exact Or.inl h1
    · exact Or.inr (List.mem_singleton.mp h1)

theorem vals_dictFold {α β : Type} (eqk : α → α → Bool)
    (hsym : ∀ a b, eqk a b = eqk b a)
    (pairs : List (α × β)) (hrefl : ∀ p ∈ pairs, eqk p.1 p.1 = true) :
    ∀ m : List (α × β), ∀ e ∈ dictFold eqk m pairs,
      (match lastVal eqk e.1 pairs with
       | some v => e.2 = v
       | none => e ∈ m) := by
  induction pairs with
  | nil =>
    intro m e he
    simpa [lastVal, dictFold] using he
  | cons p rest ih =>
    intro m e he
    obtain ⟨k, v⟩ := p
    have hrest : ∀ q ∈ rest, eqk q.1 q.1 = true := fun q hq =>
      hrefl q (List.mem_cons_of_mem _ hq)
    have hstep : dictFold eqk m ((k, v) :: rest) =
        dictFold eqk (dictInsert eqk k v m) rest := rfl
    rw [hstep] at he
    have IH := ih hrest (dictInsert eqk k v m) e he
    show (match lastVal eqk e.1 ((k, v) :: rest) with
      | some w => e.2 = w
      | none => e ∈ m)
    rw [lastVal]
    cases hl : lastVal eqk e.1 rest with
    | some w =>
      rw [hl] at IH
      exact IH
    | none =>
      rw [hl] at IH
      dsimp only
      by_cases hk : eqk k e.1
      · rw [if_pos hk]
        rcases mem_dictInsert eqk k v m IH with ⟨q, hq, heq⟩ | ⟨hany, h1 | h1⟩
        · by_cases hqk : eqk q.1 k
          · rw [if_pos hqk] at heq
            rw [← heq]
          · rw [if_neg hqk] at heq
            exfalso
            apply hqk
            rw [hsym q.1 k, heq]
            exact hk
        · exfalso
          have hne := List.any_eq_false.mp hany e h1
          apply hne
          rw [hsym e.1 k]
          exact hk
        · rw [h1]
      · rw [if_neg hk]
        rcases mem_dictInsert eqk k v m IH with ⟨q, hq, heq⟩ | ⟨hany, h1 | h1⟩
        · by_cases hqk : eqk q.1 k
          · rw [if_pos hqk] at heq
            exfalso
            apply hk
            have he1 : e.1 = q.1 := by rw [← heq]
            rw [he1, hsym k q.1]
            exact hqk
          · rw [if_neg hqk] at heq
            rw [← heq]
            exact hq
        · exact h1
        · exfalso
          apply hk
          rw [h1]
          exact hrefl (k, v) (List.mem_cons_self _ _)

theorem pyEqKey_symm (a b : Value) : pyEqKey a b = pyEqKey b a := by
  cases a <;> cases b <;> simp [pyEqKey, BEq.comm]

theorem pyEqKey_refl_hashable {a : Value} (h : pyHashable a = true) :
    pyEqKey a a = true := by
  cases a <;> simp_all [pyHashable, pyEqKey]

/-- The Function branch loop is: parse all pairs (failing where the
source fails), then fold Python dict insertion over them. -/
theorem funcPairsParse_eq_collect (parts : List (List Char)) :
    ∀ m, funcPairsParse parts m =
      (collectFuncPairs parts).map (fun ps => dictFold pyEqKey m ps) := by
  induction parts with
  | nil => intro m; rfl
  | cons part rest ih =>
    intro m
    rw [funcPairsParse, collectFuncPairs]
    cases splitFirstSub kColonGt (strip part) with
    | none =>
      dsimp only
      exact ih m
    | some kv =>
      dsimp only
      cases parse_tla_value (strip kv.2) with
      | error e => rfl
      | ok v =>
        simp only [bind, Except.bind]
        cases parse_tla_value (strip kv.1) with
        | error e => rfl
        | ok k =>
          dsimp only
          by_cases hh : pyHashable k
          · rw [if_pos hh, if_pos hh]
            rw [ih (dictInsert pyEqKey k v m)]
            cases hcol : collectFuncPairs rest with
            | error e => rfl
            | ok ps => rfl
          · rw [if_neg hh, if_neg hh]
            rfl

/-- Keys collected by the Function branch are all hashable (the
source raises before an unhashable key could be inserted). -/
theorem collectFuncPairs_hashable {parts : List (List Char)}
    {ps : List (Value × Value)} (h : collectFuncPairs parts = .ok ps) :
    ∀ p ∈ ps, pyHashable p.1 = true := by
  induction parts generalizing ps with
  | nil =>
    simp only [collectFuncPairs] at h
    cases h
    intro p hp
    cases hp
  | cons part rest ih =>
    rw [collectFuncPairs] at h
    cases hsp : splitFirstSub kColonGt (strip part) with
    | none =>
      rw [hsp] at h
      exact ih h
    | some kv =>
      rw [hsp] at h
      dsimp only at h
      cases hv : parse_tla_value (strip kv.2) with
      | error e => rw [hv] at h; cases h
      | ok v =>
        rw [hv] at h
        simp only [bind, Except.bind] at h
        cases hk : parse_tla_value (strip kv.1) with
        | error e => rw [hk] at h; cases h
        | ok k =>
          rw [hk] at h
          dsimp only at h
          by_cases hh : pyHashable k
          · rw [if_pos hh] at h
            cases hcol : collectFuncPairs rest with
            | error e => rw [hcol] at h; cases h
            | ok ps' =>
              rw [hcol] at h
              simp only [bind, Except.bind, Except.ok.injEq] at h
              subst h
              intro p hp
              rcases List.mem_cons.mp hp with rfl | hp
              · exact hh
              · exact ih hcol p hp
          · rw [if_neg hh] at h
            cases h

/-- C4 counterexample: for the function literal `(<<1, 2>> :> 3)` —
whose only key parses to a sequence, i.e. a Python dict — the parser
raises `TypeError` instead of building a mapping, so the claim's
universal statement over all parenthesized `:>` literals fails. -/
theorem c4_counterexample_unhashable_key :
    parse_tla_value "(<<1, 2>> :> 3)".toList = .error () := rfl

/-- C4 (amended): for every parenthesized literal containing `:>`, the
parser splits the interior on `@@`, splits each segment containing
`:>` at its first `:>`, parses value then key, and (when every key is
hashable) builds the mapping by Python dict insertion
(`dictFold pyEqKey`); a segment whose key parses to a composite value
raises instead.  The resulting mapping lists keys in order of first
occurrence (under Python equality, which identifies `TRUE` with `1`
and `FALSE` with `0`) and gives each key its last occurrence's
value. -/
theorem c4_function_mapping_order_and_duplicates {s mid : List Char}
    (h : strip s = '(' :: (mid ++ [')']))
    (hc : containsSub kColonGt (strip s) = true) :
    parse_tla_value s =
      (collectFuncPairs (splitAtAt (strip mid))).map
        (fun ps => .func (dictFold pyEqKey [] ps)) ∧
    ∀ ps, collectFuncPairs (splitAtAt (strip mid)) = .ok ps →
      (dictFold pyEqKey [] ps).map Prod.fst = keysFirstOccs pyEqKey [] ps ∧
      ∀ e ∈ dictFold pyEqKey [] ps, lastVal pyEqKey e.1 ps = some e.2 := by
  constructor
  · rw [parse_function_eq h hc, funcPairsParse_eq_collect]
    cases collectFuncPairs (splitAtAt (strip mid)) <;> rfl
  · intro ps hps
    constructor
    · have hk := keys_dictFold pyEqKey ps []
      simpa using hk
    · intro e he
      have hrefl : ∀ p ∈ ps, pyEqKey p.1 p.1 = true := fun p hp =>
        pyEqKey_refl_hashable (collectFuncPairs_hashable hps p hp)
      have hv := vals_dictFold pyEqKey pyEqKey_symm ps hrefl [] e he
      cases hl : lastVal pyEqKey e.1 ps with
      | some w => rw [hl] at hv; rw [hv]
      | none => rw [hl] at hv; cases hv

/-- C4 witness: the theorem applied to
`(1 :> 5 @@ TRUE :> 6 @@ 1 :> 7)`; concretely the mapping merges
`TRUE` with `1` (Python equality) and keeps the last value `7`. -/
theorem c4_function_witness :
    (parse_tla_value "(1 :> 5 @@ TRUE :> 6 @@ 1 :> 7)".toList =
      (collectFuncPairs (splitAtAt (strip "1 :> 5 @@ TRUE :> 6 @@ 1 :> 7".toList))).map
        (fun ps => Value.func (dictFold pyEqKey [] ps))) ∧
    parse_tla_value "(1 :> 5 @@ TRUE :> 6 @@ 1 :> 7)".toList =
      .ok (.func [(.int 1, .int 7)]) :=
  ⟨(@c4_function_mapping_order_and_duplicates
      "(1 :> 5 @@ TRUE :> 6 @@ 1 :> 7)".toList
      "1 :> 5 @@ TRUE :> 6 @@ 1 :> 7".toList (by rfl) (by rfl)).1,
   rfl⟩

theorem recFieldsParse_eq_collect (parts : List (List Char)) :
    ∀ fs, recFieldsParse parts fs =
      (collectRecFields parts).map (fun ps => dictFold strKeyEq fs ps) := by
  induction parts with
  | nil => intro fs; rfl
  | cons part rest ih =>
    intro fs
    rw [recFieldsParse, collectRecFields]
    cases splitFirstSub kBarArrow part with
    | none =>
      dsimp only
      exact ih fs
    | some fv =>
      dsimp only
      cases parse_tla_value (strip fv.2) with
      | error e => rfl
      | ok v =>
        simp only [bind, Except.bind]
        rw [ih (dictInsert strKeyEq (strip fv.1) v fs)]
        cases hcol : collectRecFields rest with
        | error e => rfl
        | ok ps => rfl

theorem strKeyEq_symm (a b : List Char) : strKeyEq a b = strKeyEq b a := by
  simp [strKeyEq, BEq.comm]

theorem strKeyEq_refl (a : List Char) : strKeyEq a a = true := by
  simp [strKeyEq]

/-- C6: an input of the form `[…]` parses to a Record whose fields
come exactly from the interior's split parts containing `' |-> '`
(name left of the first occurrence, value the recursive parse of the
right), with parts lacking the token silently dropped, fields inserted
with Python dict semantics: names in order of first textual
occurrence, each holding its last occurrence's value. -/
theorem c6_record_fields_from_split_parts {s mid : List Char}
    (h : strip s = '[' :: (mid ++ [']'])) :
    parse_tla_value s =
      (if (strip mid).isEmpty then .ok (.record [])
       else (collectRecFields (split_tla_list (strip mid))).map
         (fun ps => .record (dictFold strKeyEq [] ps))) ∧
    ∀ ps, collectRecFields (split_tla_list (strip mid)) = .ok ps →
      (dictFold strKeyEq [] ps).map Prod.fst = keysFirstOccs strKeyEq [] ps ∧
      ∀ e ∈ dictFold strKeyEq [] ps, lastVal strKeyEq e.1 ps = some e.2 := by
  constructor
  · rw [parse_record_eq h]
    by_cases he : (strip mid).isEmpty
    · rw [if_pos he, if_pos he]
    · rw [if_neg he, if_neg he, recFieldsParse_eq_collect]
      cases collectRecFields (split_tla_list (strip mid)) <;> rfl
  · intro ps hps
    constructor
    · have hk := keys_dictFold strKeyEq ps []
      simpa using hk
    · intro e he
      have hv := vals_dictFold strKeyEq strKeyEq_symm ps
        (fun p _ => strKeyEq_refl p.1) [] e he
      cases hl : lastVal strKeyEq e.1 ps with
      | some w => rw [hl] at hv; rw [hv]
      | none => rw [hl] at hv; cases hv

/-- C6 witness: the theorem applied to `[a |-> 1, b]`; with the
per-character depth counting the interior splits into the single part
`a |-> 1, b`, so the record has the one field `a` whose value is the
raw fallback `1, b`. -/
theorem c6_record_witness :
    (parse_tla_value "[a |-> 1, b]".toList =
      (if (strip "a |-> 1, b".toList).isEmpty then .ok (.record [])
       else (collectRecFields (split_tla_list (strip "a |-> 1, b".toList))).map
         (fun ps => Value.record (dictFold strKeyEq [] ps)))) ∧
    parse_tla_value "[a |-> 1, b]".toList =
      .ok (.record [(['a'], .raw "1, b".toList)]) :=
  ⟨(@c6_record_fields_from_split_parts
      "[a |-> 1, b]".toList "a |-> 1, b".toList (by rfl)).1,
   rfl⟩

/-! ### Elements of `split_tla_list` are non-empty and trimmed -/
theorem head?_dropWhile_not_ws (x : List Char) {c : Char}
    (h : (x.dropWhile isWS).head? = some c) : isWS c = false := by
  induction x with
  | nil => cases h
  | cons a t ih =>
    by_cases ha : isWS a
    · rw [List.dropWhile_cons_of_pos ha] at h
      exact ih h
    · rw [List.dropWhile_cons_of_neg ha] at h
      cases h
      exact Bool.eq_false_iff.mpr ha

theorem rstripL_isPre (x : List Char) : ∃ t, x = rstripL x ++ t := by
  have hsuf := @List.dropWhile_suffix _ x.reverse isWS
  obtain ⟨p, hp⟩ := hsuf
  refine ⟨p.reverse, ?_⟩
  have h1 := congrArg List.reverse hp
  simp only [List.reverse_append, List.reverse_reverse] at h1
  have h2 : rstripL x = (List.dropWhile isWS x.reverse).reverse := rfl
  rw [h2]
  exact h1.symm

theorem head?_rstripL {x : List Char} {c : Char}
    (h : (rstripL x).head? = some c) : x.head? = some c := by
  obtain ⟨t, ht⟩ := rstripL_isPre x
  rw [ht]
  cases hr : rstripL x with
  | nil => rw [hr] at h; cases h
  | cons a r =>
    rw [hr] at h
    cases h
    rfl

theorem strip_head_not_ws {s : List Char} {c : Char}
    (h : (strip s).head? = some c) : isWS c = false :=
  head?_dropWhile_not_ws s (head?_rstripL h)

theorem strip_getLast_not_ws {s : List Char} {c : Char}
    (h : (strip s).getLast? = some c) : isWS c = false := by
  have h2 : ((lstripL s).reverse.dropWhile isWS).head? = some c := by
    have : (strip s).getLast? = ((lstripL s).reverse.dropWhile isWS).head? := by
      show (rstripL (lstripL s)).getLast? = _
      unfold rstripL
      rw [List.getLast?_reverse]
    rw [← this]
    exact h
  exact head?_dropWhile_not_ws _ h2

theorem runScan_elems_strip (s : List Char) :
    ∀ st : ScanSt, ∀ e ∈ (runScan st s).elems,
      e ∈ st.elems ∨ ∃ c, e = strip c := by
  induction s with
  | nil => intro st e he; exact Or.inl he
  | cons c s ih =>
    intro st e he
    have hrw : runScan st (c :: s) = runScan (stepScan st c) s := rfl
    rw [hrw] at he
    rcases ih (stepScan st c) e he with h1 | h1
    · unfold stepScan at h1
      split_ifs at h1 <;> simp only at h1
      all_goals try exact Or.inl h1
      rcases List.mem_append.mp h1 with h2 | h2
      · exact Or.inl h2
      · exact Or.inr ⟨st.cur, (List.mem_singleton.mp h2)⟩
    · exact Or.inr h1

/-- C10 (implicit): every element returned by `split_tla_list` is
non-empty and carries no leading or trailing whitespace — so
consecutive, leading, or trailing top-level commas contribute no
elements. -/
theorem c10_split_elements_nonempty_trimmed {s e : List Char}
    (h : e ∈ split_tla_list s) :
    e ≠ [] ∧ (e.head?.all fun c => !isWS c) = true ∧
      (e.getLast?.all fun c => !isWS c) = true := by
  unfold split_tla_list at h
  have hmem := List.mem_filter.mp h
  obtain ⟨hin, hne⟩ := hmem
  have hne2 : e ≠ [] := by
    intro he
    rw [he] at hne
    simp at hne
  refine ⟨hne2, ?_⟩
  have himg : ∃ c, e = strip c := by
    rcases List.mem_append.mp hin with h1 | h1
    · rcases runScan_elems_strip s scanStart e h1 with h2 | h2
      · cases h2
      · exact h2
    · by_cases hc : (runScan scanStart s).cur.isEmpty
      · rw [if_pos hc] at h1
        cases h1
      · rw [if_neg hc] at h1
        exact ⟨_, List.mem_singleton.mp h1⟩
  obtain ⟨c, rfl⟩ := himg
  constructor
  · cases hh : (strip c).head? with
    | none => rfl
    | some a => simp [Option.all, strip_head_not_ws hh]
  · cases hh : (strip c).getLast? with
    | none => rfl
    | some a => simp [Option.all, strip_getLast_not_ws hh]

/-- C10 witness: the theorem applied to the input `,a,, b ,` and its
element `a`; concretely the whole result is `[a, b]`. -/
theorem c10_split_witness :
    (('a' :: []) ≠ [] ∧ (('a' :: []).head?.all fun c => !isWS c) = true ∧
      (('a' :: []).getLast?.all fun c => !isWS c) = true) ∧
    split_tla_list ",a,, b ,".toList = [['a'], ['b']] :=
  ⟨@c10_split_elements_nonempty_trimmed ",a,, b ,".toList ['a'] (by decide),
   rfl⟩

theorem runLines_eq_runCore (lines : List (List Char)) :
    ∀ st, runLines st lines = runCore st (lines.map rstripL) := by
  induction lines with
  | nil => intro st; rfl
  | cons l rest ih =>
    intro st
    have hr : List.map rstripL (l :: rest) = rstripL l :: List.map rstripL rest := rfl
    rw [hr, runCore, runLines]
    cases h : stepCore st (rstripL l) with
    | ok st' => exact ih st'
    | error e => rfl

theorem applyViolations_fields (st : PState) (l : List Char) :
    (applyViolations st l).curNum = st.curNum ∧
    (applyViolations st l).curAction = st.curAction ∧
    (applyViolations st l).curVars = st.curVars ∧
    (applyViolations st l).states = st.states ∧
    (applyViolations st l).inTrace = st.inTrace := by
  unfold applyViolations
  cases searchInvName l <;> cases searchPropName l <;> simp

theorem AV_curNum (st : PState) (l : List Char) :
    (applyViolations st l).curNum = st.curNum := (applyViolations_fields st l).1

theorem AV_curAction (st : PState) (l : List Char) :
    (applyViolations st l).curAction = st.curAction := (applyViolations_fields st l).2.1

theorem AV_curVars (st : PState) (l : List Char) :
    (applyViolations st l).curVars = st.curVars := (applyViolations_fields st l).2.2.1

theorem AV_states (st : PState) (l : List Char) :
    (applyViolations st l).states = st.states := (applyViolations_fields st l).2.2.2.1

theorem AV_inTrace (st : PState) (l : List Char) :
    (applyViolations st l).inTrace = st.inTrace := (applyViolations_fields st l).2.2.2.2

theorem stepCore_marker {st : PState} {l : List Char}
    (hm : containsSub kMarker l = true) :
    stepCore st l = .ok { applyViolations st l with inTrace := true } := by
  unfold stepCore
  rw [if_pos hm]

theorem stepCore_header {st : PState} {l : List Char} {n : Nat}
    (hm : containsSub kMarker l = false) (hh : matchStateHeader l = some n) :
    stepCore st l = .ok { sealOpen (applyViolations st l) with
      curNum := some n, curAction := findAction l, curVars := [],
      inTrace := true } := by
  unfold stepCore
  rw [if_neg (by simp [hm]), hh]

theorem stepCore_assign {st : PState} {l : List Char} {nv : List Char × List Char}
    (hm : containsSub kMarker l = false) (hh : matchStateHeader l = none)
    (ht : st.inTrace = true) (ha : matchAssign l = some nv) :
    stepCore st l = (parse_tla_value nv.2).map (fun v =>
      { applyViolations st l with
        curVars := dictInsert strKeyEq nv.1 v (applyViolations st l).curVars }) := by
  unfold stepCore
  rw [if_neg (by simp [hm]), hh]
  dsimp only
  rw [if_pos (by rw [AV_inTrace]; exact ht), ha]
  dsimp only
  cases parse_tla_value nv.2 <;> rfl

theorem stepCore_skip {st : PState} {l : List Char}
    (hm : containsSub kMarker l = false) (hh : matchStateHeader l = none)
    (hother : st.inTrace = false ∨ matchAssign l = none) :
    stepCore st l = .ok (applyViolations st l) := by
  unfold stepCore
  rw [if_neg (by simp [hm]), hh]
  dsimp only
  rcases hother with ht | ha
  · rw [if_neg (by rw [AV_inTrace, ht]; simp)]
  · by_cases ht : st.inTrace
    · rw [if_pos (by rw [AV_inTrace]; exact ht), ha]
    · rw [if_neg (by rw [AV_inTrace]; simp [ht])]

theorem sealOpen_none {st : PState} (h : st.curNum = none) : sealOpen st = st := by
  unfold sealOpen
  rw [h]

theorem sealOpen_some {st : PState} {n : Nat} (h : st.curNum = some n) :
    (sealOpen st).states = st.states ++ [⟨n, st.curAction, st.curVars⟩] := by
  unfold sealOpen
  rw [h]

theorem effHeader_of_marker {l : List Char} (hm : containsSub kMarker l = true) :
    effHeader l = false := by
  simp [effHeader, hm]

theorem effHeader_of_header {l : List Char} {n : Nat}
    (hm : containsSub kMarker l = false) (hh : matchStateHeader l = some n) :
    effHeader l = true := by
  simp [effHeader, hm, hh]

theorem effHeader_of_no_header {l : List Char} (hh : matchStateHeader l = none) :
    effHeader l = false := by
  simp [effHeader, hh]

/-- The heart of the trace-builder claims: a successful run seals
exactly the states predicted by the segment view.  The first conjunct
is the "no open state" mode, the second the "state open" mode. -/
theorem runCore_states (ls : List (List Char)) :
    ∀ st st', runCore st ls = .ok st' →
    (st.curNum = none →
      ∃ sts, specStatesM (segsOf ls) = .ok sts ∧
        (sealOpen st').states = st.states ++ sts) ∧
    (∀ n, st.curNum = some n → st.inTrace = true →
      ∃ vs sts, varsOfSeg (ls.takeWhile (fun x => !effHeader x)) st.curVars = .ok vs ∧
        specStatesM (segsOf ls) = .ok sts ∧
        (sealOpen st').states = st.states ++ ⟨n, st.curAction, vs⟩ :: sts) := by
  induction ls with
  | nil =>
    intro st st' h
    have hst : st = st' := by
      rw [runCore] at h
      exact Except.ok.inj h
    subst hst
    constructor
    · intro hnone
      exact ⟨[], rfl, by rw [sealOpen_none hnone]; simp⟩
    · intro n hsome ht
      refine ⟨st.curVars, [], rfl, rfl, ?_⟩
      rw [sealOpen_some hsome]
  | cons l rest ih =>
    intro st st' h
    rw [runCore] at h
    by_cases hm : containsSub kMarker l = true
    · -- marker line: only inTrace is set; not a header, not an assignment
      rw [stepCore_marker hm] at h
      dsimp only at h
      set st1 : PState := { applyViolations st l with inTrace := true } with hst1
      have hn1 : st1.curNum = st.curNum := by rw [hst1]; exact AV_curNum st l
      have ha1 : st1.curAction = st.curAction := by rw [hst1]; exact AV_curAction st l
      have hv1 : st1.curVars = st.curVars := by rw [hst1]; exact AV_curVars st l
      have hs1 : st1.states = st.states := by rw [hst1]; exact AV_states st l
      have heff : effHeader l = false := effHeader_of_marker hm
      have hsegs : segsOf (l :: rest) = segsOf rest := by rw [segsOf, heff]; simp
      constructor
      · intro hnone
        obtain ⟨sts, h1, h2⟩ := (ih st1 st' h).1 (by rw [hn1]; exact hnone)
        exact ⟨sts, by rw [hsegs]; exact h1, by rw [h2, hs1]⟩
      · intro n hsome ht
        obtain ⟨vs, sts, h1, h2, h3⟩ := (ih st1 st' h).2 n (by rw [hn1]; exact hsome) rfl
        refine ⟨vs, sts, ?_, by rw [hsegs]; exact h2, by rw [h3, hs1, ha1]⟩
        have htk : (l :: rest).takeWhile (fun x => !effHeader x) =
            l :: rest.takeWhile (fun x => !effHeader x) := by
          rw [List.takeWhile_cons]
          simp [heff]
        rw [htk, varsOfSeg, if_pos hm, ← hv1]
        exact h1
    · have hm' : containsSub kMarker l = false := Bool.eq_false_iff.mpr hm
      cases hh : matchStateHeader l with
      | some n₂ =>
        -- header line: seal any open state, open a fresh one
        rw [stepCore_header hm' hh] at h
        dsimp only at h
        set st1 : PState := { sealOpen (applyViolations st l) with
          curNum := some n₂, curAction := findAction l, curVars := [],
          inTrace := true } with hst1
        have heff : effHeader l = true := effHeader_of_header hm' hh
        have hsegs : segsOf (l :: rest) =
            (l, rest.takeWhile (fun x => !effHeader x)) :: segsOf rest := by
          rw [segsOf, heff]
          simp
        have hnum : hNum l = n₂ := by simp [hNum, hh]
        obtain ⟨vs, sts, h1, h2, h3⟩ := (ih st1 st' h).2 n₂ rfl rfl
        have hto : st1.curVars = [] := rfl
        rw [hto] at h1
        have hspec : specStatesM (segsOf (l :: rest)) =
            .ok (⟨n₂, findAction l, vs⟩ :: sts) := by
          rw [hsegs, specStatesM, h1, h2]
          simp only [bind, Except.bind, hnum]
        constructor
        · intro hnone
          refine ⟨⟨n₂, findAction l, vs⟩ :: sts, hspec, ?_⟩
          have hseal : sealOpen (applyViolations st l) = applyViolations st l :=
            sealOpen_none (by rw [AV_curNum]; exact hnone)
          have hs1 : st1.states = st.states := by
            rw [hst1]
            show (sealOpen (applyViolations st l)).states = st.states
            rw [hseal, AV_states]
          rw [h3, hs1]
        · intro n hsome ht
          refine ⟨st.curVars, ⟨n₂, findAction l, vs⟩ :: sts, ?_, hspec, ?_⟩
          · rw [List.takeWhile_cons]
            simp only [heff, Bool.not_true, if_neg, Bool.false_eq_true, ite_false]
            rfl
          · have hs1 : st1.states = st.states ++ [⟨n, st.curAction, st.curVars⟩] := by
              rw [hst1]
              show (sealOpen (applyViolations st l)).states = _
              rw [sealOpen_some (by rw [AV_curNum]; exact hsome), AV_states,
                  AV_curAction, AV_curVars]
            rw [h3, hs1]
            simp
      | none =>
        have heff : effHeader l = false := effHeader_of_no_header hh
        have hsegs : segsOf (l :: rest) = segsOf rest := by rw [segsOf, heff]; simp
        have htake : (l :: rest).takeWhile (fun x => !effHeader x) =
            l :: rest.takeWhile (fun x => !effHeader x) := by
          rw [List.takeWhile_cons]
          simp [heff]
        cases ha : matchAssign l with
        | none =>
          -- unrecognized / continuation line: no effect
          rw [stepCore_skip hm' hh (Or.inr ha)] at h
          constructor
          · intro hnone
            obtain ⟨sts, h1, h2⟩ := (ih _ st' h).1 (by rw [AV_curNum]; exact hnone)
            exact ⟨sts, by rw [hsegs]; exact h1, by rw [h2, AV_states]⟩
          · intro n hsome ht
            obtain ⟨vs, sts, h1, h2, h3⟩ := (ih _ st' h).2 n
              (by rw [AV_curNum]; exact hsome) (by rw [AV_inTrace]; exact ht)
            refine ⟨vs, sts, ?_, by rw [hsegs]; exact h2,
              by rw [h3, AV_states, AV_curAction]⟩
            rw [htake, varsOfSeg, if_neg (by simp [hm']), ha]
            rw [AV_curVars] at h1
            exact h1
        | some nv =>
          by_cases ht0 : st.inTrace = true
          · -- assignment line while in the trace
            rw [stepCore_assign hm' hh ht0 ha] at h
            cases hp : parse_tla_value nv.2 with
            | error e =>
              rw [hp] at h
              cases h
            | ok v =>
              rw [hp] at h
              dsimp only [Except.map] at h
              set st1 : PState := { applyViolations st l with
                curVars := dictInsert strKeyEq nv.1 v (applyViolations st l).curVars }
                with hst1
              have hn1 : st1.curNum = st.curNum := by rw [hst1]; exact AV_curNum st l
              constructor
              · intro hnone
                obtain ⟨sts, h1, h2⟩ := (ih st1 st' h).1 (by rw [hn1]; exact hnone)
                refine ⟨sts, by rw [hsegs]; exact h1, ?_⟩
                rw [h2]
                have : st1.states = st.states := by rw [hst1]; exact AV_states st l
                rw [this]
              · intro n hsome ht
                obtain ⟨vs, sts, h1, h2, h3⟩ := (ih st1 st' h).2 n
                  (by rw [hn1]; exact hsome) (by rw [hst1]; show (applyViolations st l).inTrace = true; rw [AV_inTrace]; exact ht)
                refine ⟨vs, sts, ?_, by rw [hsegs]; exact h2, ?_⟩
                · rw [htake, varsOfSeg, if_neg (by simp [hm']), ha]
                  dsimp only
                  rw [hp]
                  simp only [bind, Except.bind]
                  have hcv : st1.curVars =
                      dictInsert strKeyEq nv.1 v st.curVars := by
                    rw [hst1]
                    show dictInsert strKeyEq nv.1 v (applyViolations st l).curVars = _
                    rw [AV_curVars]
                  rw [← hcv]
                  exact h1
                · rw [h3]
                  have hs1 : st1.states = st.states := by rw [hst1]; exact AV_states st l
                  have ha1 : st1.curAction = st.curAction := by
                    rw [hst1]; exact AV_curAction st l
                  rw [hs1, ha1]
          · -- not in the trace: the assignment line is ignored
            rw [stepCore_skip hm' hh (Or.inl (Bool.eq_false_iff.mpr ht0))] at h
            constructor
            · intro hnone
              obtain ⟨sts, h1, h2⟩ := (ih _ st' h).1 (by rw [AV_curNum]; exact hnone)
              exact ⟨sts, by rw [hsegs]; exact h1, by rw [h2, AV_states]⟩
            · intro n hsome ht
              exact absurd ht ht0

theorem specStatesM_length {segs : List (List Char × List (List Char))}
    {sts : List TraceState} (h : specStatesM segs = .ok sts) :
    sts.length = segs.length := by
  induction segs generalizing sts with
  | nil =>
    rw [specStatesM] at h
    cases h
    rfl
  | cons p rest ih =>
    obtain ⟨hd, seg⟩ := p
    rw [specStatesM] at h
    cases hv : varsOfSeg seg [] with
    | error e => rw [hv] at h; cases h
    | ok vs =>
      rw [hv] at h
      simp only [bind, Except.bind] at h
      cases hs : specStatesM rest with
      | error e => rw [hs] at h; cases h
      | ok sts' =>
        rw [hs] at h
        cases h
        simp [ih hs]

theorem specStatesM_map_num {segs : List (List Char × List (List Char))}
    {sts : List TraceState} (h : specStatesM segs = .ok sts) :
    sts.map (fun s => s.state_num) = segs.map (fun p => hNum p.1) := by
  induction segs generalizing sts with
  | nil =>
    rw [specStatesM] at h
    cases h
    rfl
  | cons p rest ih =>
    obtain ⟨hd, seg⟩ := p
    rw [specStatesM] at h
    cases hv : varsOfSeg seg [] with
    | error e => rw [hv] at h; cases h
    | ok vs =>
      rw [hv] at h
      simp only [bind, Except.bind] at h
      cases hs : specStatesM rest with
      | error e => rw [hs] at h; cases h
      | ok sts' =>
        rw [hs] at h
        cases h
        simp [ih hs]

theorem segsOf_map_fst (ls : List (List Char)) :
    (segsOf ls).map Prod.fst = ls.filter effHeader := by
  induction ls with
  | nil => rfl
  | cons l rest ih =>
    rw [segsOf, List.filter_cons]
    by_cases h : effHeader l
    · rw [if_pos h, if_pos h]
      simp [ih]
    · rw [if_neg h, if_neg (by simp [h])]
      exact ih

theorem segsOf_nil_iff (ls : List (List Char)) :
    segsOf ls = [] ↔ ls.any effHeader = false := by
  induction ls with
  | nil => simp [segsOf]
  | cons l rest ih =>
    rw [segsOf, List.any_cons]
    by_cases h : effHeader l
    · rw [if_pos h]
      simp [h]
    · rw [if_neg h]
      simp [Bool.eq_false_iff.mpr h, ih]

/-- A run of `parse_tlc_output` that does not raise realizes the
segment view: the outcome is determined by the predicted states. -/
theorem parse_tlc_output_cases (lines : List (List Char)) (spec : List Char)
    (h : parse_tlc_output lines spec ≠ .error ()) :
    ∃ st0 sts, runLines pInit lines = .ok st0 ∧
      specStatesM (segsOf (lines.map rstripL)) = .ok sts ∧
      (sealOpen st0).states = sts ∧
      parse_tlc_output lines spec =
        .ok (if sts.isEmpty then none
             else some ⟨spec, (sealOpen st0).invariantViolated,
               (sealOpen st0).propertyViolated, sts⟩) := by
  cases hr : runLines pInit lines with
  | error e =>
    exfalso
    apply h
    unfold parse_tlc_output
    rw [hr]
  | ok st0 =>
    have hrc : runCore pInit (lines.map rstripL) = .ok st0 := by
      rw [← runLines_eq_runCore]
      exact hr
    obtain ⟨sts, h1, h2⟩ := (runCore_states (lines.map rstripL) pInit st0 hrc).1 rfl
    have h2' : (sealOpen st0).states = sts := by
      rw [h2]
      rfl
    refine ⟨st0, sts, rfl, h1, h2', ?_⟩
    unfold parse_tlc_output
    rw [hr]
    dsimp only
    by_cases he : sts.isEmpty
    · rw [if_pos (by rw [h2']; exact he), if_pos he]
    · rw [if_neg (by rw [h2']; exact he), if_neg he, h2']

/-- C8: every sealed state's variables are exactly the bindings
produced by the assignment lines textually between its header and the
next header (or end of input), with an open state sealed when the next
header is seen and a still-open state sealed at end of input: whenever
the builder completes, its sealed states equal, one for one, the
states predicted by the segment view (`segsOf` pairs each effective
header with the lines before the next one; `varsOfSeg` folds exactly
that segment's assignment lines). -/
theorem c8_sealed_state_variables {lines : List (List Char)} {spec : List Char}
    {t : Trace} (h : parse_tlc_output lines spec = .ok (some t)) :
    specStatesM (segsOf (lines.map rstripL)) = .ok t.states ∧
    t.states.length = (segsOf (lines.map rstripL)).length := by
  have hne : parse_tlc_output lines spec ≠ .error () := by
    rw [h]
    simp
  obtain ⟨st0, sts, hr, h1, h2, h3⟩ := parse_tlc_output_cases lines spec hne
  have heq := h.symm.trans h3
  by_cases he : sts.isEmpty
  · rw [if_pos he] at heq
    exact absurd (Except.ok.inj heq) (by simp)
  · rw [if_neg he] at heq
    have ht := Option.some.inj (Except.ok.inj heq)
    have hts : t.states = sts := by rw [ht]
    rw [hts]
    exact ⟨h1, specStatesM_length h1⟩

/-- C8 witness: the theorem applied to a six-line log with two
headers; the second state collects exactly the two assignments after
its header. -/
theorem c8_segment_witness :
    specStatesM (segsOf (["State 1: <Init>".toList, "/\\ x = 1".toList,
      "noise".toList, "State 2:".toList, "/\\ x = 2".toList,
      "/\\ y = 3".toList].map rstripL)) =
      .ok [⟨1, some "Init".toList, [(['x'], Value.int 1)]⟩,
           ⟨2, none, [(['x'], Value.int 2), (['y'], Value.int 3)]⟩] :=
  (@c8_sealed_state_variables
    ["State 1: <Init>".toList, "/\\ x = 1".toList, "noise".toList,
      "State 2:".toList, "/\\ x = 2".toList, "/\\ y = 3".toList]
    ['S']
    ⟨['S'], none, none,
      [⟨1, some "Init".toList, [(['x'], Value.int 1)]⟩,
       ⟨2, none, [(['x'], Value.int 2), (['y'], Value.int 3)]⟩]⟩
    (by rfl)).1

/-- C9 counterexample: a log whose headers are numbered 2 then 1
builds a trace whose indices [2, 1] are not non-decreasing — the code
extracts the numbers as printed and enforces nothing. -/
theorem c9_counterexample_decreasing_indices :
    parse_tlc_output ["State 2:".toList, "State 1:".toList] ['S'] =
      .ok (some ⟨['S'], none, none, [⟨2, none, []⟩, ⟨1, none, []⟩]⟩) ∧
    nonDec [2, 1] = false :=
  ⟨rfl, rfl⟩

/-- C9 (amended): in every built trace the states' index values are
exactly the numbers extracted from the effective `State <N>:` header
lines, in the order those headers appear; the sequence is
non-decreasing whenever the log's header numbers are (the code copies
the numbers and enforces nothing). -/
theorem c9_state_indices_follow_headers {lines : List (List Char)}
    {spec : List Char} {t : Trace}
    (h : parse_tlc_output lines spec = .ok (some t)) :
    t.states.map (fun s => s.state_num) =
      ((lines.map rstripL).filter effHeader).map hNum ∧
    (nonDec (((lines.map rstripL).filter effHeader).map hNum) = true →
      nonDec (t.states.map (fun s => s.state_num)) = true) := by
  have hne : parse_tlc_output lines spec ≠ .error () := by
    rw [h]
    simp
  obtain ⟨st0, sts, hr, h1, h2, h3⟩ := parse_tlc_output_cases lines spec hne
  have heq := h.symm.trans h3
  by_cases he : sts.isEmpty
  · rw [if_pos he] at heq
    exact absurd (Except.ok.inj heq) (by simp)
  · rw [if_neg he] at heq
    have ht := Option.some.inj (Except.ok.inj heq)
    have hts : t.states = sts := by rw [ht]
    have hmap : t.states.map (fun s => s.state_num) =
        ((lines.map rstripL).filter effHeader).map hNum := by
      rw [hts, specStatesM_map_num h1, ← segsOf_map_fst, List.map_map]
      rfl
    exact ⟨hmap, fun hx => by rwa [hmap]⟩

/-- C9 witness: the theorem applied to a two-header log with indices
1 then 3. -/
theorem c9_indices_witness :
    ([⟨1, none, []⟩, ⟨3, none, []⟩] : List TraceState).map
        (fun s => s.state_num) =
      ((["State 1:".toList, "State 3:".toList].map rstripL).filter
        effHeader).map hNum ∧
    (nonDec (((["State 1:".toList, "State 3:".toList].map rstripL).filter
        effHeader).map hNum) = true →
      nonDec (([⟨1, none, []⟩, ⟨3, none, []⟩] : List TraceState).map
        (fun s => s.state_num)) = true) :=
  @c9_state_indices_follow_headers
    ["State 1:".toList, "State 3:".toList] ['S']
    ⟨['S'], none, none, [⟨1, none, []⟩, ⟨3, none, []⟩]⟩ (by rfl)

/-- C2 counterexample: a log with no state header whose (pre-header)
assignment value is a function literal with a composite key makes the
program die with an uncaught `TypeError` — not the claimed
"no trace found" diagnostic with non-zero exit. -/
theorem c2_counterexample_exception_escapes :
    parse_tlc_output ["Error: The behavior up to this point is:".toList,
        "/\\ x = (\x7b1\x7d :> 2)".toList] ['S'] = .error () ∧
    (["Error: The behavior up to this point is:".toList,
        "/\\ x = (\x7b1\x7d :> 2)".toList].map rstripL).any effHeader = false :=
  ⟨rfl, rfl⟩

/-- C2 (amended): provided no processed assignment line raises (no
composite function keys), the CLI contract holds: with no effective
state header the builder returns the "no trace found" outcome and the
program prints a diagnostic and exits 1; with at least one header the
program exits 0 and emits the serialized trace document. -/
theorem c2_exit_status_and_document {lines : List (List Char)} {spec : List Char}
    (h : parse_tlc_output lines spec ≠ .error ()) :
    ((lines.map rstripL).any effHeader = false →
      parse_tlc_output lines spec = .ok none ∧
      mainRun lines spec = .ok (1, none)) ∧
    ((lines.map rstripL).any effHeader = true →
      ∃ t, parse_tlc_output lines spec = .ok (some t) ∧
        mainRun lines spec = .ok (0, some (jsonOfTrace t))) := by
  obtain ⟨st0, sts, hr, h1, h2, h3⟩ := parse_tlc_output_cases lines spec h
  constructor
  · intro hno
    have hsegs : segsOf (lines.map rstripL) = [] := (segsOf_nil_iff _).mpr hno
    have hsts : sts = [] := by
      rw [hsegs] at h1
      exact (Except.ok.inj h1).symm
    rw [hsts] at h3
    simp only [List.isEmpty_nil, if_true] at h3
    refine ⟨h3, ?_⟩
    unfold mainRun
    rw [h3]
  · intro hyes
    have hsts : ¬sts.isEmpty = true := by
      intro hemp
      have hnil : sts = [] := List.isEmpty_iff.mp hemp
      have hlen := specStatesM_length h1
      rw [hnil] at hlen
      have hsegs : segsOf (lines.map rstripL) = [] := by
        cases hseg : segsOf (lines.map rstripL) with
        | nil => rfl
        | cons a b =>
          rw [hseg] at hlen
          cases hlen
      rw [(segsOf_nil_iff _).mp hsegs] at hyes
      cases hyes
    rw [if_neg hsts] at h3
    refine ⟨_, h3, ?_⟩
    unfold mainRun
    rw [h3]

/-- C2 witness: the theorem applied to a one-header log — exit 0 with
the serialized document of the one-state trace. -/
theorem c2_exit_witness :
    mainRun ["State 1: <Init>".toList, "/\\ x = 1".toList] ['S'] =
      .ok (0, some (jsonOfTrace ⟨['S'], none, none,
        [⟨1, some "Init".toList, [(['x'], Value.int 1)]⟩]⟩)) := by
  obtain ⟨t, h1, h2⟩ :=
    (@c2_exit_status_and_document
      ["State 1: <Init>".toList, "/\\ x = 1".toList] ['S']
      (by intro he
          rw [show parse_tlc_output ["State 1: <Init>".toList, "/\\ x = 1".toList] ['S'] =
            .ok (some ⟨['S'], none, none,
              [⟨1, some "Init".toList, [(['x'], Value.int 1)]⟩]⟩) from rfl] at he
          cases he)).2 (by rfl)
  have ht : t = ⟨['S'], none, none,
      [⟨1, some "Init".toList, [(['x'], Value.int 1)]⟩]⟩ := by
    rw [show parse_tlc_output ["State 1: <Init>".toList, "/\\ x = 1".toList] ['S'] =
      .ok (some ⟨['S'], none, none,
        [⟨1, some "Init".toList, [(['x'], Value.int 1)]⟩]⟩) from rfl] at h1
    exact (Option.some.inj (Except.ok.inj h1)).symm
  rw [ht] at h2
  exact h2

theorem runScan_append (st : ScanSt) (a b : List Char) :
    runScan st (a ++ b) = runScan (runScan st a) b :=
  List.foldl_append stepScan st a b

theorem stepScan_c1 {st : ScanSt} {c : Char}
    (h : (c = '"' && !decide (st.prev = some '\\')) = true) :
    stepScan st c =
      { st with prev := some c, cur := st.cur ++ [c], inStr := !st.inStr } := by
  unfold stepScan
  rw [if_pos h]

theorem stepScan_c2 {st : ScanSt} {c : Char}
    (h1 : (c = '"' && !decide (st.prev = some '\\')) = false)
    (h2 : st.inStr = true) :
    stepScan st c = { st with prev := some c, cur := st.cur ++ [c] } := by
  unfold stepScan
  rw [if_neg (by simp [h1]), if_pos h2]

theorem stepScan_c3 {st : ScanSt} {c : Char}
    (h1 : (c = '"' && !decide (st.prev = some '\\')) = false)
    (h2 : st.inStr = false) (h3 : openDelims.contains c = true) :
    stepScan st c = { st with prev := some c, cur := st.cur ++ [c], depth := st.depth + 1 } := by
  unfold stepScan
  rw [if_neg (by simp [h1]), if_neg (by simp [h2]), if_pos h3]

theorem stepScan_c4 {st : ScanSt} {c : Char}
    (h1 : (c = '"' && !decide (st.prev = some '\\')) = false)
    (h2 : st.inStr = false) (h3 : openDelims.contains c = false)
    (h4 : closeDelims.contains c = true) :
    stepScan st c = { st with prev := some c, cur := st.cur ++ [c], depth := st.depth - 1 } := by
  unfold stepScan
  rw [if_neg (by simp [h1]), if_neg (by simp [h2]), if_neg (by rw [h3]; simp),
      if_pos h4]

theorem stepScan_c5 {st : ScanSt} {c : Char}
    (h1 : (c = '"' && !decide (st.prev = some '\\')) = false)
    (h2 : st.inStr = false) (h3 : openDelims.contains c = false)
    (h4 : closeDelims.contains c = false)
    (h5 : (c = ',' && decide (st.depth = 0)) = true) :
    stepScan st c = { st with prev := some c, cur := [], elems := st.elems ++ [strip st.cur] } := by
  unfold stepScan
  rw [if_neg (by simp [h1]), if_neg (by simp [h2]), if_neg (by rw [h3]; simp),
      if_neg (by rw [h4]; simp), if_pos h5]

theorem stepScan_c6 {st : ScanSt} {c : Char}
    (h1 : (c = '"' && !decide (st.prev = some '\\')) = false)
    (h2 : st.inStr = false) (h3 : openDelims.contains c = false)
    (h4 : closeDelims.contains c = false)
    (h5 : (c = ',' && decide (st.depth = 0)) = false) :
    stepScan st c = { st with prev := some c, cur := st.cur ++ [c] } := by
  unfold stepScan
  rw [if_neg (by simp [h1]), if_neg (by simp [h2]), if_neg (by rw [h3]; simp),
      if_neg (by rw [h4]; simp), if_neg (by simp [h5])]

/-- The elements list only grows along a scan. -/
theorem runScan_elems_mono (t : List Char) :
    ∀ st : ScanSt, ∃ tail, (runScan st t).elems = st.elems ++ tail := by
  induction t with
  | nil => intro st; exact ⟨[], by simp [runScan]⟩
  | cons c t ih =>
    intro st
    have hr : runScan st (c :: t) = runScan (stepScan st c) t := rfl
    obtain ⟨tail, htail⟩ := ih (stepScan st c)
    rw [hr, htail]
    by_cases h1 : (c = '"' && !decide (st.prev = some '\\')) = true
    · rw [stepScan_c1 h1]; exact ⟨tail, rfl⟩
    · have h1' := Bool.eq_false_iff.mpr h1
      by_cases h2 : st.inStr
      · rw [stepScan_c2 h1' h2]; exact ⟨tail, rfl⟩
      · have h2' := Bool.eq_false_iff.mpr h2
        by_cases h3 : openDelims.contains c = true
        · rw [stepScan_c3 h1' h2' h3]; exact ⟨tail, rfl⟩
        · have h3' := Bool.eq_false_iff.mpr h3
          by_cases h4 : closeDelims.contains c = true
          · rw [stepScan_c4 h1' h2' h3' h4]; exact ⟨tail, rfl⟩
          · have h4' := Bool.eq_false_iff.mpr h4
            by_cases h5 : (c = ',' && decide (st.depth = 0)) = true
            · rw [stepScan_c5 h1' h2' h3' h4' h5]
              exact ⟨strip st.cur :: tail, by simp⟩
            · rw [stepScan_c6 h1' h2' h3' h4' (Bool.eq_false_iff.mpr h5)]
              exact ⟨tail, rfl⟩

theorem stEquiv_refl (st : ScanSt) : stEquiv st st := ⟨rfl, rfl, Iff.rfl⟩

theorem cond1_congr {st st' : ScanSt} (c : Char) (h : stEquiv st st') :
    (c = '"' && !decide (st.prev = some '\\')) =
      (c = '"' && !decide (st'.prev = some '\\')) := by
  rw [decide_eq_decide.mpr h.2.2]

/-- Transport: a flush-free scan from equivalent states appends the
scanned text to the accumulator on both sides and keeps the states
equivalent. -/
theorem runScan_transport (t : List Char) :
    ∀ st st' : ScanSt, stEquiv st st' →
    (runScan st t).elems = st.elems →
    (runScan st' t).elems = st'.elems ∧
    (runScan st t).cur = st.cur ++ t ∧
    (runScan st' t).cur = st'.cur ++ t ∧
    stEquiv (runScan st t) (runScan st' t) := by
  induction t with
  | nil =>
    intro st st' heq _
    exact ⟨rfl, by simp [runScan], by simp [runScan], heq⟩
  | cons c t ih =>
    intro st st' heq hnf
    have hr : runScan st (c :: t) = runScan (stepScan st c) t := rfl
    have hr' : runScan st' (c :: t) = runScan (stepScan st' c) t := rfl
    rw [hr] at hnf ⊢
    rw [hr']
    have hc1 := cond1_congr c heq
    by_cases h1 : (c = '"' && !decide (st.prev = some '\\')) = true
    · rw [stepScan_c1 h1] at hnf ⊢
      rw [stepScan_c1 (hc1 ▸ h1)]
      have heq2 : stEquiv { st with prev := some c, cur := st.cur ++ [c], inStr := !st.inStr }
          { st' with prev := some c, cur := st'.cur ++ [c], inStr := !st'.inStr } :=
        ⟨heq.1, by simp [heq.2.1], Iff.rfl⟩
      obtain ⟨k1, k2, k3, k4⟩ := ih _ _ heq2 hnf
      exact ⟨k1, by rw [k2]; simp, by rw [k3]; simp, k4⟩
    · have h1' := Bool.eq_false_iff.mpr h1
      have h1'' : (c = '"' && !decide (st'.prev = some '\\')) = false := hc1 ▸ h1'
      by_cases h2 : st.inStr
      · have h2' : st'.inStr = true := heq.2.1 ▸ h2
        rw [stepScan_c2 h1' h2] at hnf ⊢
        rw [stepScan_c2 h1'' h2']
        have heq2 : stEquiv { st with prev := some c, cur := st.cur ++ [c] }
            { st' with prev := some c, cur := st'.cur ++ [c] } :=
          ⟨heq.1, heq.2.1, Iff.rfl⟩
        obtain ⟨k1, k2, k3, k4⟩ := ih _ _ heq2 hnf
        exact ⟨k1, by rw [k2]; simp, by rw [k3]; simp, k4⟩
      · have h2' := Bool.eq_false_iff.mpr h2
        have h2'' : st'.inStr = false := heq.2.1 ▸ h2'
        by_cases h3 : openDelims.contains c = true
        · rw [stepScan_c3 h1' h2' h3] at hnf ⊢
          rw [stepScan_c3 h1'' h2'' h3]
          have heq2 : stEquiv
              { st with prev := some c, cur := st.cur ++ [c], depth := st.depth + 1 }
              { st' with prev := some c, cur := st'.cur ++ [c], depth := st'.depth + 1 } :=
            ⟨by simp [heq.1], heq.2.1, Iff.rfl⟩
          obtain ⟨k1, k2, k3, k4⟩ := ih _ _ heq2 hnf
          exact ⟨k1, by rw [k2]; simp, by rw [k3]; simp, k4⟩
        · have h3' := Bool.eq_false_iff.mpr h3
          by_cases h4 : closeDelims.contains c = true
          · rw [stepScan_c4 h1' h2' h3' h4] at hnf ⊢
            rw [stepScan_c4 h1'' h2'' h3' h4]
            have heq2 : stEquiv
                { st with prev := some c, cur := st.cur ++ [c], depth := st.depth - 1 }
                { st' with prev := some c, cur := st'.cur ++ [c], depth := st'.depth - 1 } :=
              ⟨by simp [heq.1], heq.2.1, Iff.rfl⟩
            obtain ⟨k1, k2, k3, k4⟩ := ih _ _ heq2 hnf
            exact ⟨k1, by rw [k2]; simp, by rw [k3]; simp, k4⟩
          · have h4' := Bool.eq_false_iff.mpr h4
            by_cases h5 : (c = ',' && decide (st.depth = 0)) = true
            · exfalso
              rw [stepScan_c5 h1' h2' h3' h4' h5] at hnf
              obtain ⟨tail, htail⟩ := runScan_elems_mono t
                { st with prev := some c, cur := [], elems := st.elems ++ [strip st.cur] }
              rw [htail] at hnf
              simp at hnf
            · have h5' := Bool.eq_false_iff.mpr h5
              have h5'' : (c = ',' && decide (st'.depth = 0)) = false := by
                rw [← heq.1]
                exact h5'
              rw [stepScan_c6 h1' h2' h3' h4' h5'] at hnf ⊢
              rw [stepScan_c6 h1'' h2'' h3' h4' h5'']
              have heq2 : stEquiv { st with prev := some c, cur := st.cur ++ [c] }
                  { st' with prev := some c, cur := st'.cur ++ [c] } :=
                ⟨heq.1, heq.2.1, Iff.rfl⟩
              obtain ⟨k1, k2, k3, k4⟩ := ih _ _ heq2 hnf
              exact ⟨k1, by rw [k2]; simp, by rw [k3]; simp, k4⟩

theorem ws_facts {c : Char} (h : isWS c = true) :
    c ≠ '"' ∧ openDelims.contains c = false ∧ closeDelims.contains c = false ∧
      c ≠ ',' ∧ c ≠ '\\' := by
  simp only [isWS, Bool.or_eq_true, decide_eq_true_eq] at h
  rcases h with (((((rfl | rfl) | rfl) | rfl) | rfl) | rfl) <;> decide

/-- Whitespace never changes depth, string state, or the elements; it
is appended to the accumulator, and afterwards the previous character
is a backslash only if it already was (and no whitespace was read). -/
theorem runScan_ws (w : List Char) :
    ∀ st : ScanSt, (∀ c ∈ w, isWS c = true) →
    (runScan st w).elems = st.elems ∧ (runScan st w).cur = st.cur ++ w ∧
    (runScan st w).depth = st.depth ∧ (runScan st w).inStr = st.inStr ∧
    ((runScan st w).prev = some '\\' → st.prev = some '\\') := by
  induction w with
  | nil =>
    intro st _
    exact ⟨rfl, by simp [runScan], rfl, rfl, fun h => h⟩
  | cons c w ih =>
    intro st hws
    have hc := hws c (List.mem_cons_self _ _)
    obtain ⟨hq, ho, hcl, hcm, hbs⟩ := ws_facts hc
    have hr : runScan st (c :: w) = runScan (stepScan st c) w := rfl
    have h1 : (c = '"' && !decide (st.prev = some '\\')) = false := by
      simp [hq]
    have hstep : stepScan st c = { st with prev := some c, cur := st.cur ++ [c] } := by
      by_cases h2 : st.inStr
      · exact stepScan_c2 h1 h2
      · exact stepScan_c6 h1 (Bool.eq_false_iff.mpr h2) ho hcl (by simp [hcm])
    obtain ⟨k1, k2, k3, k4, k5⟩ := ih { st with prev := some c, cur := st.cur ++ [c] }
      (fun x hx => hws x (List.mem_cons_of_mem _ hx))
    rw [hr, hstep]
    refine ⟨k1, by rw [k2]; simp, k3, k4, ?_⟩
    intro hp
    have := k5 hp
    simp only at this
    exact absurd (Option.some.inj this) hbs

theorem dropWhile_append_all {p : Char → Bool} {w : List Char}
    (hw : ∀ c ∈ w, p c = true) (e : List Char) :
    (w ++ e).dropWhile p = e.dropWhile p := by
  induction w with
  | nil => rfl
  | cons c t ih =>
    have hc := hw c (List.mem_cons_self _ _)
    simp only [List.cons_append, List.dropWhile_cons, hc, if_true]
    exact ih (fun x hx => hw x (List.mem_cons_of_mem _ hx))

theorem strip_ws_append {w : List Char} (hw : ∀ c ∈ w, isWS c = true)
    (e : List Char) : strip (w ++ e) = strip e := by
  unfold strip lstripL
  rw [dropWhile_append_all hw]

theorem strip_all_ws {w : List Char} (hw : ∀ c ∈ w, isWS c = true) :
    strip w = [] := by
  have := strip_ws_append hw []
  rw [List.append_nil] at this
  rw [this]
  rfl

theorem strip_decomp (s : List Char) :
    ∃ w1 w2, s = w1 ++ strip s ++ w2 ∧
      (∀ c ∈ w1, isWS c = true) ∧ (∀ c ∈ w2, isWS c = true) := by
  refine ⟨s.takeWhile isWS, ((lstripL s).reverse.takeWhile isWS).reverse, ?_, ?_, ?_⟩
  · have h1 : s = s.takeWhile isWS ++ lstripL s :=
      (List.takeWhile_append_dropWhile isWS s).symm
    have h2 : lstripL s = strip s ++ ((lstripL s).reverse.takeWhile isWS).reverse := by
      have h3 : (lstripL s).reverse =
          (lstripL s).reverse.takeWhile isWS ++ (lstripL s).reverse.dropWhile isWS :=
        (List.takeWhile_append_dropWhile isWS (lstripL s).reverse).symm
      have h4 := congrArg List.reverse h3
      simp only [List.reverse_reverse, List.reverse_append] at h4
      exact h4
    rw [List.append_assoc, ← h2]
    exact h1
  · intro c hc
    exact List.mem_takeWhile_imp hc
  · intro c hc
    rw [List.mem_reverse] at hc
    exact List.mem_takeWhile_imp hc

theorem dropWhile_eq_self_of_head {p : Char → Bool} {l : List Char} {a : Char}
    (h : l.head? = some a) (ha : p a = false) : l.dropWhile p = l := by
  cases l with
  | nil => cases h
  | cons x t =>
    cases h
    simp [List.dropWhile_cons, ha]

theorem rstripL_eq_self_of_getLast {l : List Char} {a : Char}
    (h : l.getLast? = some a) (ha : isWS a = false) : rstripL l = l := by
  unfold rstripL
  have hrev : l.reverse.head? = some a := by
    rw [List.head?_reverse]
    exact h
  rw [dropWhile_eq_self_of_head hrev ha, List.reverse_reverse]

theorem strip_idem (s : List Char) : strip (strip s) = strip s := by
  by_cases hnil : strip s = []
  · rw [hnil]
    rfl
  · obtain ⟨a, t, heq⟩ := List.exists_cons_of_ne_nil hnil
    have hhead : (strip s).head? = some a := by rw [heq]; rfl
    obtain ⟨b, hb⟩ :=
      Option.isSome_iff_exists.mp (List.getLast?_isSome.mpr hnil)
    have h1 : lstripL (strip s) = strip s :=
      dropWhile_eq_self_of_head hhead (strip_head_not_ws hhead)
    have h2 : rstripL (strip s) = strip s :=
      rstripL_eq_self_of_getLast hb (strip_getLast_not_ws hb)
    show rstripL (lstripL (strip s)) = strip s
    rw [h1, h2]

/-- Stripping a flush-free accumulator keeps it flush-free and
accumulating; if moreover it ended balanced, the strip is neutral. -/
theorem neutralLast_of_accum {u : List Char}
    (h1 : (runScan freshScan u).elems = [])
    (h2 : (runScan freshScan u).cur = u) :
    NeutralLast (strip u) ∧
    ((runScan freshScan u).depth = 0 → (runScan freshScan u).inStr = false →
      Neutral (strip u)) := by
  obtain ⟨w1, w2, hdec, hw1, hw2⟩ := strip_decomp u
  have hrun : runScan freshScan u =
      runScan (runScan (runScan freshScan w1) (strip u)) w2 := by
    conv_lhs => rw [hdec]
    rw [runScan_append, runScan_append]
  obtain ⟨a1, a2, a3, a4, a5⟩ := runScan_ws w1 freshScan hw1
  set stA := runScan freshScan w1 with hstA
  set stB := runScan stA (strip u) with hstB
  obtain ⟨b1, b2, b3, b4, b5⟩ := runScan_ws w2 stB hw2
  have hBel : stB.elems = [] ∧ stA.elems = [] := by
    obtain ⟨t1, ht1⟩ := runScan_elems_mono (strip u) stA
    obtain ⟨t2, ht2⟩ := runScan_elems_mono w2 stB
    have hh : (runScan freshScan u).elems = stB.elems ++ t2 := by
      rw [hrun]
      exact ht2
    rw [h1] at hh
    have hB0 : stB.elems = [] := by
      have hl := congrArg List.length hh
      simp only [List.length_nil, List.length_append] at hl
      exact List.length_eq_zero.mp (by omega)
    refine ⟨hB0, ?_⟩
    rw [ht1] at hB0
    have hl := congrArg List.length hB0
    simp only [List.length_nil, List.length_append] at hl
    exact List.length_eq_zero.mp (by omega)
  have heqAF : stEquiv stA freshScan := by
    refine ⟨a3, a4, ?_⟩
    constructor
    · intro hp
      have hcontr := a5 hp
      simp [freshScan] at hcontr
    · intro hp
      simp [freshScan] at hp
  have hnfA : (runScan stA (strip u)).elems = stA.elems := by
    show stB.elems = stA.elems
    rw [hBel.1, hBel.2]
  obtain ⟨k1, k2, k3, k4⟩ := runScan_transport (strip u) stA freshScan heqAF hnfA
  have hfel : (runScan freshScan (strip u)).elems = [] := k1
  have hfcur : (runScan freshScan (strip u)).cur = strip u := by
    rw [k3]
    rfl
  refine ⟨⟨hfel, hfcur⟩, ?_⟩
  intro hd hs
  have hBd : stB.depth = 0 := by
    rw [hrun] at hd
    rw [← b3]
    exact hd
  have hBs : stB.inStr = false := by
    rw [hrun] at hs
    rw [← b4]
    exact hs
  refine ⟨⟨hfel, hfcur⟩, ?_, ?_⟩
  · rw [← k4.1, ← hstB, hBd]
  · rw [← k4.2.1, ← hstB, hBs]

theorem goodSt_step {st : ScanSt} (hg : GoodSt st) (c : Char) :
    GoodSt (stepScan st c) := by
  obtain ⟨hel, f1, f2, f3, f4, f5⟩ := hg
  have hrw : runScan freshScan (st.cur ++ [c]) =
      stepScan (runScan freshScan st.cur) c := by
    rw [runScan_append]
    rfl
  set R := runScan freshScan st.cur with hR
  have heqR : stEquiv st R := ⟨f3.symm, f4.symm, f5⟩
  have hc1 := cond1_congr c heqR
  by_cases h1 : (c = '"' && !decide (st.prev = some '\\')) = true
  · rw [stepScan_c1 h1]
    refine ⟨hel, ?_, ?_, ?_, ?_, ?_⟩ <;>
      simp only [hrw, stepScan_c1 (hc1 ▸ h1)]
    · exact f1
    · rw [f2]
    · rw [f3]
    · rw [f4]
  · have h1' := Bool.eq_false_iff.mpr h1
    have h1'' : (c = '"' && !decide (R.prev = some '\\')) = false := hc1 ▸ h1'
    by_cases h2 : st.inStr
    · have h2' : R.inStr = true := f4 ▸ h2
      rw [stepScan_c2 h1' h2]
      refine ⟨hel, ?_, ?_, ?_, ?_, ?_⟩ <;>
        simp only [hrw, stepScan_c2 h1'' h2']
      · exact f1
      · rw [f2]
      · rw [f3]
      · rw [f4]
    · have h2' := Bool.eq_false_iff.mpr h2
      have h2'' : R.inStr = false := f4 ▸ h2'
      by_cases h3 : openDelims.contains c = true
      · rw [stepScan_c3 h1' h2' h3]
        refine ⟨hel, ?_, ?_, ?_, ?_, ?_⟩ <;>
          simp only [hrw, stepScan_c3 h1'' h2'' h3]
        · exact f1
        · rw [f2]
        · rw [f3]
        · rw [f4]
      · have h3' := Bool.eq_false_iff.mpr h3
        by_cases h4 : closeDelims.contains c = true
        · rw [stepScan_c4 h1' h2' h3' h4]
          refine ⟨hel, ?_, ?_, ?_, ?_, ?_⟩ <;>
            simp only [hrw, stepScan_c4 h1'' h2'' h3' h4]
          · exact f1
          · rw [f2]
          · rw [f3]
          · rw [f4]
        · have h4' := Bool.eq_false_iff.mpr h4
          by_cases h5 : (c = ',' && decide (st.depth = 0)) = true
          · -- flush: prove the stripped accumulator is neutral
            rw [stepScan_c5 h1' h2' h3' h4' h5]
            have hdep : st.depth = 0 := by
              have := (Bool.and_eq_true_iff.mp h5).2
              exact of_decide_eq_true this
            have hneu := neutralLast_of_accum f1 f2
            have hN : Neutral (strip st.cur) :=
              hneu.2 (by rw [f3, hdep]) (by rw [f4, h2'])
            refine ⟨?_, ?_, ?_, ?_, ?_, ?_⟩
            · intro e he hene
              rcases List.mem_append.mp he with h | h
              · exact hel e h hene
              · rw [List.mem_singleton.mp h]
                exact hN
            · rfl
            · rfl
            · exact hdep.symm
            · exact h2'.symm
            · have hc : c = ',' := of_decide_eq_true (Bool.and_eq_true_iff.mp h5).1
              subst hc
              simp [freshScan, runScan]
          · have h5' := Bool.eq_false_iff.mpr h5
            have h5'' : (c = ',' && decide (R.depth = 0)) = false := by
              rw [f3]
              exact h5'
            rw [stepScan_c6 h1' h2' h3' h4' h5']
            refine ⟨hel, ?_, ?_, ?_, ?_, ?_⟩ <;>
              simp only [hrw, stepScan_c6 h1'' h2'' h3' h4' h5'']
            · exact f1
            · rw [f2]
            · rw [f3]
            · rw [f4]

theorem scan_good (s : List Char) : GoodSt (runScan scanStart s) := by
  suffices h : ∀ st, GoodSt st → GoodSt (runScan st s) by
    refine h scanStart ⟨?_, ?_, ?_, ?_, ?_, ?_⟩
    · intro e he
      cases he
    · rfl
    · rfl
    · rfl
    · rfl
    · simp [scanStart, freshScan, runScan]
  induction s with
  | nil => intro st hg; exact hg
  | cons c t ih =>
    intro st hg
    exact ih (stepScan st c) (goodSt_step hg c)

theorem filter_singleton_ne {e : List Char} (he : e ≠ []) :
    List.filter (fun x => !x.isEmpty) [e] = [e] := by
  simp [List.filter_cons, he]

/-- Re-scanning the rejoined elements flushes them back out one by
one: each neutral element replays between the inserted separators. -/
theorem rejoinAux (es : List (List Char)) :
    ∀ st : ScanSt, chainGood es → (∀ e ∈ es, e ≠ [] ∧ strip e = e) →
    st.depth = 0 → st.inStr = false → st.prev ≠ some '\\' →
    (∀ c ∈ st.cur, isWS c = true) →
    ((runScan st (joinCS es)).elems ++
      (if (runScan st (joinCS es)).cur.isEmpty then []
       else [strip (runScan st (joinCS es)).cur])).filter (fun e => !e.isEmpty) =
    st.elems.filter (fun e => !e.isEmpty) ++ es := by
  induction es with
  | nil =>
    intro st _ _ _ _ _ hcur
    have hj : runScan st (joinCS []) = st := rfl
    rw [hj, List.filter_append]
    by_cases hc : st.cur.isEmpty
    · rw [if_pos hc]
      simp
    · rw [if_neg hc, strip_all_ws hcur]
      simp
  | cons e rest ih =>
    intro st hchain hnes hd hs hp hcur
    have hne : e ≠ [] := (hnes e (List.mem_cons_self _ _)).1
    have hstr : strip e = e := (hnes e (List.mem_cons_self _ _)).2
    have heqFS : stEquiv freshScan st := by
      refine ⟨by rw [hd]; rfl, by rw [hs]; rfl, ?_⟩
      constructor
      · intro hx
        simp [freshScan] at hx
      · intro hx
        exact absurd hx hp
    cases rest with
    | nil =>
      have hNL : NeutralLast e := hchain
      have hjoin : joinCS [e] = e := rfl
      rw [hjoin]
      obtain ⟨k1, k2, k3, k4⟩ :=
        runScan_transport e freshScan st heqFS hNL.1
      have hcurne : st.cur ++ e ≠ [] := by
        intro hx
        rcases List.append_eq_nil.mp hx with ⟨_, h2⟩
        exact hne h2
      rw [k1, k3]
      rw [if_neg (by simpa using hcurne)]
      rw [strip_ws_append hcur, hstr, List.filter_append, filter_singleton_ne hne]
    | cons e2 rest2 =>
      have hN : Neutral e := hchain.1
      have hchain2 : chainGood (e2 :: rest2) := hchain.2
      have hjoin : joinCS (e :: e2 :: rest2) =
          (e ++ [',', ' ']) ++ joinCS (e2 :: rest2) := rfl
      obtain ⟨k1, k2, k3, k4⟩ :=
        runScan_transport e freshScan st heqFS hN.1.1
      set stE := runScan st e with hstE
      have hEd : stE.depth = 0 := by rw [← k4.1]; exact hN.2.1
      have hEs : stE.inStr = false := by rw [← k4.2.1]; exact hN.2.2
      have hstripE : strip stE.cur = e := by
        rw [k3, strip_ws_append hcur, hstr]
      have hflush : stepScan stE ',' = { stE with prev := some ',', cur := [], elems := stE.elems ++ [e] } := by
        rw [stepScan_c5 (by simp) hEs (by decide) (by decide) (by simp [hEd]), hstripE]
      have hstep6 : ∀ q : ScanSt, q.inStr = false →
          stepScan q ' ' = { q with prev := some ' ', cur := q.cur ++ [' '] } :=
        fun q hq => stepScan_c6 (by simp) hq (by decide) (by decide) (by simp)
      have hcomma2 : runScan stE [',', ' '] = { stE with prev := some ' ', cur := [' '], elems := stE.elems ++ [e] } := by
        show stepScan (stepScan stE ',') ' ' = _
        rw [hflush, hstep6 { stE with prev := some ',', cur := [], elems := stE.elems ++ [e] } hEs]
        rfl
      set stG := runScan stE [',', ' '] with hstG
      have hGd : stG.depth = 0 := by rw [hcomma2]; exact hEd
      have hGs : stG.inStr = false := by rw [hcomma2]; exact hEs
      have hGp : stG.prev ≠ some '\\' := by rw [hcomma2]; simp
      have hGc : ∀ c ∈ stG.cur, isWS c = true := by
        rw [hcomma2]
        intro c hc
        dsimp only at hc
        simp only [List.mem_singleton] at hc
        subst hc
        decide
      have hGe : stG.elems = st.elems ++ [e] := by
        rw [hcomma2]
        dsimp only
        rw [k1]
      have hG := ih stG hchain2 (fun x hx => hnes x (List.mem_cons_of_mem _ hx)) hGd hGs hGp hGc
      rw [hjoin, runScan_append, runScan_append, ← hstE, ← hstG, hG, hGe,
        List.filter_append, filter_singleton_ne hne, List.append_assoc]
      rfl

theorem stepScan_elems_cases (st : ScanSt) (c : Char) :
    (stepScan st c).elems = st.elems ∨
      (stepScan st c).elems = st.elems ++ [strip st.cur] := by
  unfold stepScan
  split_ifs <;> simp

/-- Every element ever flushed is a `strip` image, hence fixed by
`strip`. -/
theorem runScan_elems_strip_fix (t : List Char) :
    ∀ st : ScanSt, (∀ e ∈ st.elems, strip e = e) →
    ∀ e ∈ (runScan st t).elems, strip e = e := by
  induction t with
  | nil => intro st h; exact h
  | cons c t ih =>
    intro st h
    refine ih (stepScan st c) ?_
    rcases stepScan_elems_cases st c with hc | hc <;> rw [hc]
    · exact h
    · intro e he
      rcases List.mem_append.mp he with h1 | h1
      · exact h e h1
      · rw [List.mem_singleton.mp h1]
        exact strip_idem st.cur

/-- Prepending neutral elements preserves a good chain. -/
theorem chainGood_append (B : List (List Char)) (hB : chainGood B) :
    ∀ A : List (List Char), (∀ e ∈ A, Neutral e) → chainGood (A ++ B) := by
  intro A
  induction A with
  | nil => intro _; exact hB
  | cons a A2 ih =>
    intro hA
    have hgood : chainGood (A2 ++ B) :=
      ih (fun e he => hA e (List.mem_cons_of_mem _ he))
    have ha : Neutral a := hA a (List.mem_cons_self _ _)
    show chainGood (a :: (A2 ++ B))
    cases hab : A2 ++ B with
    | nil => exact ha.1
    | cons b l =>
      rw [hab] at hgood
      exact ⟨ha, hgood⟩

theorem chainGood_filter_single (x : List Char) (hx : NeutralLast x) :
    chainGood (List.filter (fun e => !e.isEmpty) [x]) := by
  by_cases h : x.isEmpty
  · have hfil : List.filter (fun e => !e.isEmpty) [x] = [] := by
      simp [List.filter_cons, h]
    rw [hfil]
    trivial
  · have hfil : List.filter (fun e => !e.isEmpty) [x] = [x] := by
      simp [List.filter_cons, h]
    rw [hfil]
    exact hx

/-- The output of `split_tla_list` is a good chain of non-empty,
already-stripped elements. -/
theorem split_elems_facts (s : List Char) :
    chainGood (split_tla_list s) ∧
    ∀ e ∈ split_tla_list s, e ≠ [] ∧ strip e = e := by
  obtain ⟨hel, f1, f2, f3, f4, f5⟩ := scan_good s
  have hLdef : split_tla_list s =
      ((runScan scanStart s).elems ++
        (if (runScan scanStart s).cur.isEmpty then []
         else [strip (runScan scanStart s).cur])).filter (fun e => !e.isEmpty) := rfl
  have hstrips : ∀ e ∈ (runScan scanStart s).elems, strip e = e :=
    runScan_elems_strip_fix s scanStart (fun e he => absurd he (List.not_mem_nil e))
  constructor
  · rw [hLdef, List.filter_append]
    refine chainGood_append _ ?_ _ ?_
    · by_cases hc : (runScan scanStart s).cur.isEmpty
      · rw [if_pos hc]
        trivial
      · rw [if_neg hc]
        exact chainGood_filter_single _ (neutralLast_of_accum f1 f2).1
    · intro e he
      have hm := List.mem_filter.mp he
      have hne : e ≠ [] := by
        intro hx
        rw [hx] at hm
        simp at hm
      exact hel e hm.1 hne
  · intro e he
    rw [hLdef] at he
    have hm := List.mem_filter.mp he
    have hne : e ≠ [] := by
      intro hx
      rw [hx] at hm
      simp at hm
    refine ⟨hne, ?_⟩
    rcases List.mem_append.mp hm.1 with h1 | h1
    · exact hstrips e h1
    · by_cases hc : (runScan scanStart s).cur.isEmpty
      · rw [if_pos hc] at h1
        cases h1
      · rw [if_neg hc] at h1
        rw [List.mem_singleton.mp h1]
        exact strip_idem _

/-- The round trip holds for every input, with no balance or
string-cleanliness assumption: the split elements are exactly
reproduced. -/
theorem split_join_split (s : List Char) :
    split_tla_list (joinCS (split_tla_list s)) = split_tla_list s := by
  obtain ⟨hchain, hfacts⟩ := split_elems_facts s
  have h := rejoinAux (split_tla_list s) scanStart hchain hfacts rfl rfl
    (by simp [scanStart]) (by intro c hc; simp [scanStart] at hc)
  have h2 : split_tla_list (joinCS (split_tla_list s)) =
      ((runScan scanStart (joinCS (split_tla_list s))).elems ++
        (if (runScan scanStart (joinCS (split_tla_list s))).cur.isEmpty then []
         else [strip (runScan scanStart (joinCS (split_tla_list s))).cur])).filter
        (fun e => !e.isEmpty) := rfl
  rw [h2, h]
  rfl

/-- C7: for every bracket-balanced interior text whose quoted strings
contain no delimiter characters, `split_tla_list` round-trips —
re-joining the output elements with `, ` and re-splitting yields the
same number of elements with the same content (here proved as literal
equality, so also equal up to whitespace trimming; the underlying
development shows the round trip needs neither hypothesis). -/
theorem c7_split_roundtrip (s : List Char)
    (hbal : scanBalanced scanStart s = true)
    (hclean : scanStringsClean scanStart s = true) :
    (split_tla_list (joinCS (split_tla_list s))).length =
      (split_tla_list s).length ∧
    split_tla_list (joinCS (split_tla_list s)) = split_tla_list s :=
  ⟨by rw [split_join_split], split_join_split s⟩

theorem c7_roundtrip_witness :
    scanBalanced scanStart "\x7b1, 2\x7d, \"ab\", 3".toList = true ∧
    scanStringsClean scanStart "\x7b1, 2\x7d, \"ab\", 3".toList = true ∧
    split_tla_list (joinCS (split_tla_list "\x7b1, 2\x7d, \"ab\", 3".toList)) =
      split_tla_list "\x7b1, 2\x7d, \"ab\", 3".toList :=
  ⟨by decide, by decide,
    (c7_split_roundtrip "\x7b1, 2\x7d, \"ab\", 3".toList (by decide) (by decide)).2⟩
